import Mathlib

/-!
Shallow embedding of the MCTS engine of `go_ai/mcts.py` (repository
Xiangmingchen/Go-AI).  The game-rules oracle (`gym_go`'s `GoGame`), the
evaluator network (`forward_func`), and the two library numeric routines
used by the search (`np.sqrt` and `sklearn.preprocessing.normalize`) are
external collaborators of the repository; they are modelled as explicit
parameters (`GameAPI`, `forward`, `sq`) and an explicit `l1normalize`
definition, exactly as the code invokes them.  Game states are opaque
values of a type parameter `S`.

The mutable node graph (parent back-links plus child slots) is embedded
as an arena: a list of `Node` records addressed by index, with `parent`
and `children` holding indices.  Python exceptions / failed `assert`s /
out-of-bounds numpy indexing become `Option.none`.  Real-valued node
statistics are modelled by `ℚ`; the final `pi` vector, which involves a
real power `N ** (1/temp)`, lives in `ℝ`.
-/

namespace GoAI

/-- The stateless game-rules oracle `GoGame` (external `gym_go` package),
together with the two numpy state-array accessors the MCTS code uses:
`shape1`/`shape2` model `state.shape[1]`/`state.shape[2]`, and `chanSlice`
models numpy sub-indexing `array_of_states[0][idx]` as performed in
`MCTree.cache_children`. -/
structure GameAPI (S : Type) where
  get_action_size : S → Nat
  get_valid_moves : S → List Bool
  get_next_state : S → Nat → S
  get_turn : S → Nat
  get_canonical_form : S → Nat → S
  get_game_ended : S → Bool
  get_areas : S → Int × Int
  get_init_board : Nat → S
  shape1 : S → Nat
  shape2 : S → Nat
  chanSlice : S → Nat → S

/-- One vertex of the search tree (`class Node` in `mcts.py`).  `parent`
and the entries of `children` are arena indices. -/
structure Node (S : Type) where
  parent : Option Nat
  height : Nat
  children : List (Option Nat)
  action_probs : List ℚ
  state : S
  turn : Nat
  terminal : Bool
  N : Nat
  V : ℚ
  Q_sum : ℚ
  deriving DecidableEq

/-- The search tree (`class MCTree`): the node arena plus the root index. -/
structure MCTree (S : Type) where
  nodes : List (Node S)
  root : Nat
  deriving DecidableEq

def MCTree.get (t : MCTree S) (i : Nat) : Option (Node S) :=
  t.nodes[i]?

/-- `Node.__init__`: builds a node record.  The constructor asserts
`state.shape[1] == state.shape[2]` and sizes the child array as
`board_size ** 2 + 1` with `board_size = state.shape[1]`; `height` is
`parent.height + 1`, or `0` for a parentless node.  Registration into the
parent's child slot is done by `insertChild` below. -/
def mkNode (g : GameAPI S) (parent : Option Nat) (parentHeight : Option Nat)
    (probs : List ℚ) (v : ℚ) (s : S) : Option (Node S) :=
  if g.shape1 s = g.shape2 s then
    some { parent := parent
           height := (parentHeight.map (· + 1)).getD 0
           children := List.replicate ((g.shape1 s) ^ 2 + 1) none
           action_probs := probs
           state := s
           turn := g.get_turn s
           terminal := g.get_game_ended s
           N := 0
           V := v
           Q_sum := 0 }
  else none

/-- `Node.visited`: `self.N > 0`. -/
def Node.visited (nd : Node S) : Bool :=
  nd.N > 0

/-- `Node.cached_children`: `(self.children != None).any()`. -/
def Node.cached_children (nd : Node S) : Bool :=
  nd.children.any (fun c => c.isSome)

/-- The sum of visit counts over the real (non-`None`) children of a node,
as computed inside `Node.is_leaf`:
`sum(map(lambda child: child.N, filter(lambda child: child is not None, self.children)))`. -/
def childVisitSum (nodes : List (Node S)) (nd : Node S) : Nat :=
  ((nd.children.filterMap id).filterMap (fun cid => nodes[cid]?)).foldl
    (fun acc ch => acc + ch.N) 0

/-- `Node.is_leaf`: returns `True` if `self.N == 1`, otherwise whether the
sum of the real children's visit counts is `<= 0`. -/
def Node.is_leaf (nodes : List (Node S)) (nd : Node S) : Bool :=
  if nd.N = 1 then true
  else decide (childVisitSum nodes nd ≤ 0)

/-- `Node.avg_Q(move)`: `child = self.children[move]`, then
`-((child.V + child.Q_sum) / (1 + self.N))`.  A missing slot, a `None`
child, or a dangling index is a Python `IndexError`/`AttributeError`,
hence `none`. -/
def avg_Q (nodes : List (Node S)) (nd : Node S) (move : Nat) : Option ℚ :=
  match nd.children[move]? with
  | some (some cid) =>
      (nodes[cid]?).map (fun ch => -((ch.V + ch.Q_sum) / (1 + (nd.N : ℚ))))
  | _ => none

/-- `Node.back_propagate(value_incre)`: `self.N += 1`,
`self.Q_sum += value_incre`, then recurse on the parent with the
increment negated.  The parent walk is fuelled; exhausted fuel (a cyclic
parent chain, on which the Python recursion would not terminate) and a
dangling parent index give `none`. -/
def back_propagate (nodes : List (Node S)) (nid : Nat) (v : ℚ) :
    Nat → Option (List (Node S))
  | 0 => none
  | fuel + 1 =>
    match nodes[nid]? with
    | none => none
    | some nd =>
      let nodes' := nodes.set nid { nd with N := nd.N + 1, Q_sum := nd.Q_sum + v }
      match nd.parent with
      | none => some nodes'
      | some p => back_propagate nodes' p (-v) fuel

/-- An explicit parent chain in the arena: `c₀ :: c₁ :: …` is a chain when
each `cᵢ`'s parent is `cᵢ₊₁` and the last element is parentless (the
root).  This is the path `back_propagate` walks. -/
def isChain (nodes : List (Node S)) : List Nat → Bool
  | [] => false
  | c :: rest =>
    match nodes[c]? with
    | none => false
    | some nd =>
      match rest with
      | [] => decide (nd.parent = none)
      | c' :: _ => decide (nd.parent = some c') && isChain nodes rest

/-- Entry `m` of a boolean valid-move vector (`valid_moves[move]` where in
bounds; the default is irrelevant wherever the vector covers the action
range). -/
def validAt (bs : List Bool) (m : Nat) : Bool :=
  bs.getD m false

/-- `np.argwhere(valid_moves > 0).flatten()`: the indices of the true
entries of the valid-move vector, in ascending order. -/
def argwherePos (bs : List Bool) : List Nat :=
  (List.range bs.length).filter (validAt bs)

/-- The canonical successor computed throughout `mcts.py`:
`get_canonical_form(get_next_state(state, move), get_turn(next_state))`. -/
def canonicalNext (g : GameAPI S) (s : S) (move : Nat) : S :=
  let next_state := g.get_next_state s move
  g.get_canonical_form next_state (g.get_turn next_state)

/-- `canonical_winning` inside `get_immediate_lookahead`: compares the two
areas of the canonical state: `1` if the mover's area is greater, `-1` if
smaller, else `0`. -/
def canonical_winning (g : GameAPI S) (cs : S) : ℚ :=
  let a := g.get_areas cs
  if a.1 > a.2 then 1 else if a.1 < a.2 then -1 else 0

/-- The per-state partition loop of `get_immediate_lookahead`: walks the
moves `0, …, action_size - 1`; a legal move consumes the head of each of
the three parallel streams (canonical next-states, priors, values — the
shared `curr_idx` cursor in the Python) and records the q-value
`-((1 - terminal) * value + terminal * winning)` and the child prior; an
illegal move records q-value `0` and consumes nothing.  A Python
`IndexError` (a stream exhausted, or `valid_moves[move]` out of bounds)
is `none`. -/
def partitionOne (g : GameAPI S) (s : S) :
    List Nat → List S → List (List ℚ) → List ℚ →
    Option (List (List ℚ) × List ℚ × (List S × List (List ℚ) × List ℚ))
  | [], css, cpis, cvals => some ([], [], (css, cpis, cvals))
  | m :: ms, css, cpis, cvals =>
    match (g.get_valid_moves s)[m]? with
    | none => none
    | some b =>
      if b then
        match css, cpis, cvals with
        | cs :: css', cpi :: cpis', v :: cvals' =>
          let terminal := g.get_game_ended cs
          let winning := canonical_winning g cs
          let val := if terminal then winning else v
          (partitionOne g s ms css' cpis' cvals').map
            (fun r => (cpi :: r.1, (-val) :: r.2.1, r.2.2))
        | _, _, _ => none
      else
        (partitionOne g s ms css cpis cvals).map
          (fun r => (r.1, (0 : ℚ) :: r.2.1, r.2.2))

/-- The outer partition loop of `get_immediate_lookahead` over the batch
of input states, threading the three consumption streams. -/
def partitionAll (g : GameAPI S) :
    List S → List S → List (List ℚ) → List ℚ →
    Option (List (List (List ℚ)) × List (List ℚ) ×
      (List S × List (List ℚ) × List ℚ))
  | [], css, cpis, cvals => some ([], [], (css, cpis, cvals))
  | s :: rest, css, cpis, cvals =>
    (partitionOne g s (List.range (g.get_action_size s)) css cpis cvals).bind
      (fun r =>
        (partitionAll g rest r.2.2.1 r.2.2.2.1 r.2.2.2.2).map
          (fun r' => (r.1 :: r'.1, r.2.1 :: r'.2.1, r'.2.2)))

/-- The flat concatenation `canonical_next_states` built by the first
loop of `get_immediate_lookahead`: the canonical successors of all legal
moves of all batch states, in batch order then ascending move order. -/
def flatCanonicalChildren (g : GameAPI S) (states : List S) : List S :=
  states.flatMap (fun s => (argwherePos (g.get_valid_moves s)).map (canonicalNext g s))

/-- `get_immediate_lookahead(states, forward_func)`: concatenate the
canonical successors of all legal moves of all batch states, in order;
call the evaluator once on the whole concatenation; partition the outputs
back per input state; finally assert (`assert curr_idx == len(...)`) that
the evaluator returned exactly one prior and one value per requested
expansion.  Returns `(batch_pis, batch_qvals, canonical_next_states)` —
the third component is the flat concatenation, exactly as the code
returns it. -/
def get_immediate_lookahead (g : GameAPI S)
    (forward : List S → List (List ℚ) × List ℚ) (states : List S) :
    Option (List (List (List ℚ)) × List (List ℚ) × List S) :=
  let canonical_next_states := flatCanonicalChildren g states
  let out := forward canonical_next_states
  (partitionAll g states canonical_next_states out.1 out.2).bind
    (fun r =>
      if r.2.2.2.1 = [] ∧ r.2.2.2.2 = [] then
        some (r.1, r.2.1, canonical_next_states)
      else none)

/-- Number of legal moves of a state (the number of expansions
`get_immediate_lookahead` requests for it). -/
def numValid (g : GameAPI S) (s : S) : Nat :=
  (argwherePos (g.get_valid_moves s)).length

/-- Total expansions requested for the batch states before index `i`:
the flat-stream offset of state `i`'s block. -/
def expansionsBefore (g : GameAPI S) (states : List S) (i : Nat) : Nat :=
  ((states.take i).map (numValid g)).sum

/-- Number of legal moves of `s` with index strictly below `m`: the
offset of move `m` inside the state's block of the flat stream. -/
def validBelow (g : GameAPI S) (s : S) (m : Nat) : Nat :=
  ((List.range m).filter (validAt (g.get_valid_moves s))).length

/-- Registration step of `Node.__init__` when a `(parent, action)` pair is
given: build the child via `mkNode` (with `height = parent.height + 1`)
and store its arena index into the parent's child slot for that action.
An out-of-range slot is a Python `IndexError`, hence `none`. -/
def insertChild (g : GameAPI S) (t : MCTree S) (pid move : Nat)
    (probs : List ℚ) (v : ℚ) (s : S) : Option (MCTree S) :=
  (t.get pid).bind fun pnd =>
  (mkNode g (some pid) (some pnd.height) probs v s).bind fun child =>
  if move < pnd.children.length then
    some { nodes := (t.nodes.set pid
             { pnd with children := pnd.children.set move (some t.nodes.length) })
             ++ [child]
           root := t.root }
  else none

/-- The child-creation loop of `MCTree.cache_children`:
`for idx, move in enumerate(valid_move_idcs): Node((node, move),
batch_pis[0][idx], batch_qvals[0][idx], batch_canonical_children[0][idx])`.
Exactly as in the source, the q-value is read at the enumeration index
`idx` (not at the move index), and the stored child state is numpy
sub-slice `idx` of the first element of the *flat* canonical-state array
(`chanSlice`). -/
def cacheLoop (g : GameAPI S) (nid : Nat) (pis0 : List (List ℚ))
    (qs0 : List ℚ) (cs0 : S) :
    List (Nat × Nat) → MCTree S → Option (MCTree S)
  | [], t => some t
  | (idx, move) :: rest, t =>
    match pis0[idx]?, qs0[idx]? with
    | some p, some q =>
        (insertChild g t nid move p q (g.chanSlice cs0 idx)).bind fun t' =>
          cacheLoop g nid pis0 qs0 cs0 rest t'
    | _, _ => none

/-- `MCTree.cache_children(node)`: no-op on a terminal node; otherwise
run `get_immediate_lookahead` on the singleton batch `[node.state]` and
create one child per legal move via `cacheLoop`. -/
def cache_children (g : GameAPI S) (fw : List S → List (List ℚ) × List ℚ)
    (t : MCTree S) (nid : Nat) : Option (MCTree S) :=
  (t.get nid).bind fun nd =>
  if nd.terminal then some t
  else
    (get_immediate_lookahead g fw [nd.state]).bind fun r =>
    (r.1[0]?).bind fun pis0 =>
    (r.2.1[0]?).bind fun qs0 =>
    (r.2.2[0]?).bind fun cs0 =>
    cacheLoop g nid pis0 qs0 cs0
      (argwherePos (g.get_valid_moves nd.state)).enum t

/-- The UCB score `Q + U` computed in the loop body of
`select_best_child`: `Q = avg_Q(move)`, `child = children[move]`,
`U = u_const * P[move] * sqrt(node.N) / (1 + child.N)`.  `sq` is the
external `np.sqrt` applied to the visit count. -/
def ucbScore (sq : Nat → ℚ) (nodes : List (Node S)) (nd : Node S)
    (u_const : ℚ) (move : Nat) : Option ℚ :=
  (avg_Q nodes nd move).bind fun Q =>
  (nd.children[move]?).bind fun slot =>
  (slot.bind fun cid => nodes[cid]?).bind fun child =>
  (nd.action_probs[move]?).map fun Psa =>
    Q + u_const * Psa * sq nd.N / (1 + (child.N : ℚ))

/-- The selection loop of `select_best_child`: scan the legal moves in
ascending order, keeping `best_move`/`max_UCB` (initially `None`/`-inf`),
updating on a strictly greater score (`if Q + U > max_UCB`). -/
def ucbLoop (sq : Nat → ℚ) (nodes : List (Node S)) (nd : Node S)
    (u_const : ℚ) :
    List Nat → Option Nat → WithBot ℚ → Option (Option Nat)
  | [], best, _ => some best
  | move :: rest, best, maxUCB =>
    match ucbScore sq nodes nd u_const move with
    | none => none
    | some q =>
      if maxUCB < (q : WithBot ℚ) then
        ucbLoop sq nodes nd u_const rest (some move) q
      else
        ucbLoop sq nodes nd u_const rest best maxUCB

/-- Pure reference form of the selection loop over a total score
function. -/
def foldBest (f : Nat → ℚ) : List Nat → Option Nat → WithBot ℚ → Option Nat
  | [], best, _ => best
  | m :: rest, best, q =>
    if q < (f m : WithBot ℚ) then foldBest f rest (some m) (f m)
    else foldBest f rest best q

/-- `MCTree.select_best_child(node, u_const=1)`: cache the children if
none are cached, then scan the legal moves with `ucbLoop`; a `None`
best move is the fatal `raise Exception(...)`; returns the (possibly
updated) tree, the chosen child's arena index and the chosen move. -/
def select_best_child (g : GameAPI S)
    (fw : List S → List (List ℚ) × List ℚ) (sq : Nat → ℚ) (t : MCTree S)
    (nid : Nat) (u_const : ℚ := 1) : Option (MCTree S × Nat × Nat) :=
  (t.get nid).bind fun nd0 =>
  (if nd0.cached_children then some t else cache_children g fw t nid).bind
    fun t' =>
  (t'.get nid).bind fun nd =>
  (ucbLoop sq t'.nodes nd u_const
      (argwherePos (g.get_valid_moves nd.state)) none ⊥).bind fun best =>
  match best with
  | none => none
  | some best_move =>
    (nd.children[best_move]?).bind fun slot =>
    slot.map fun cid => (t', cid, best_move)

/-- A small concrete game over `S := Nat` used by the witnesses: two
actions, both always legal; successor `s + m + 1`; canonicalization adds
`10 * turn`; states `≥ 5` are terminal; areas `(s, 1)`. -/
def gW : GameAPI Nat :=
  { get_action_size := fun _ => 2
    get_valid_moves := fun _ => [true, true]
    get_next_state := fun s m => s + m + 1
    get_turn := fun s => s % 2
    get_canonical_form := fun s t => s + 10 * t
    get_game_ended := fun s => decide (s ≥ 5)
    get_areas := fun s => ((s : Int), 1)
    get_init_board := fun _ => 0
    shape1 := fun _ => 1
    shape2 := fun _ => 1
    chanSlice := fun s _ => s }

/-- A concrete deterministic evaluator for the witnesses: prior `[1, 0]`
and value `s` for every state `s`. -/
def forwardW (l : List Nat) : List (List ℚ) × List ℚ :=
  (l.map (fun _ => [1, 0]), l.map (fun s => (s : ℚ)))

/-- Fixture root node for the selection witness: two cached children in
slots 0 and 1, priors `[1, 0]`, never visited. -/
def rootW3 : Node Nat :=
  { parent := none, height := 0, children := [some 1, some 2]
    action_probs := [1, 0], state := 0, turn := 0, terminal := false
    N := 0, V := 0, Q_sum := 0 }

/-- Fixture tree for the selection witness: `rootW3` with child 1
(`V = 1`, so `avg_Q = -1`) and child 2 (`V = -2`, so `avg_Q = 2`). -/
def tW3 : MCTree Nat :=
  { nodes := [rootW3,
      { parent := some 0, height := 1, children := [], action_probs := []
        state := 1, turn := 1, terminal := false, N := 0, V := 1, Q_sum := 0 },
      { parent := some 0, height := 1, children := [], action_probs := []
        state := 2, turn := 0, terminal := false, N := 0, V := -2, Q_sum := 0 }]
    root := 0 }

/-- The witness's total score function: the defined UCB scores of
`rootW3` in `tW3` (with `sq n = n`). -/
def fW3 : Nat → ℚ :=
  fun m => (ucbScore (fun n => (n : ℚ)) tW3.nodes rootW3 1 m).getD 0

/-- A game in which no action is ever legal (for the fatal-selection
witness). -/
def gEmpty : GameAPI Nat :=
  { get_action_size := fun _ => 1
    get_valid_moves := fun _ => [false]
    get_next_state := fun s _ => s
    get_turn := fun _ => 0
    get_canonical_form := fun s _ => s
    get_game_ended := fun _ => false
    get_areas := fun _ => (0, 0)
    get_init_board := fun _ => 0
    shape1 := fun _ => 1
    shape2 := fun _ => 1
    chanSlice := fun s _ => s }

/-- Fixture node with a cached child slot but (under `gEmpty`) no legal
action. -/
def ndEmpty : Node Nat :=
  { parent := none, height := 0, children := [some 1], action_probs := [1]
    state := 0, turn := 0, terminal := false, N := 1, V := 0, Q_sum := 0 }

/-- Fixture tree holding `ndEmpty` at the root. -/
def tEmpty : MCTree Nat :=
  { nodes := [ndEmpty,
      { parent := some 0, height := 1, children := [], action_probs := []
        state := 0, turn := 0, terminal := false, N := 0, V := 0, Q_sum := 0 }]
    root := 0 }

/-- Concrete node constructor for test fixtures over the trivial state
type `Unit` (height, priors and turn irrelevant). -/
def testNode (parent : Option Nat) (children : List (Option Nat))
    (n : Nat) (v q : ℚ) : Node Unit :=
  { parent := parent, height := 0, children := children, action_probs := []
    state := (), turn := 0, terminal := false, N := n, V := v, Q_sum := q }

/-- Fixture: a parent with one child in slot 0; both have been visited
once.  The child has `N = 0` in the `avg_Q` fixture below. -/
def nodesA : List (Node Unit) :=
  [testNode none [some 1] 1 0 0, testNode (some 0) [] 1 0 0]

/-- Fixture for `avg_Q`: parent (index 0) visited 3 times, child (slot 0,
index 1) never visited, with value estimate 2. -/
def nodesB : List (Node Unit) :=
  [testNode none [some 1] 3 0 0, testNode (some 0) [] 0 2 0]


/-- The descent loop of one simulation in `get_action_probs`:
`curr_node = self.root; while curr_node.visited() and not
curr_node.terminal: curr_node, move = self.select_best_child(curr_node)`.
Fuelled; fuel exhaustion (the Python loop failing to terminate) is
`none`. -/
def descend (g : GameAPI S) (fw : List S → List (List ℚ) × List ℚ)
    (sq : Nat → ℚ) : Nat → MCTree S → Nat → Option (MCTree S × Nat)
  | 0, _, _ => none
  | fuel + 1, t, nid =>
    match t.get nid with
    | none => none
    | some nd =>
      if nd.visited && !nd.terminal then
        match select_best_child g fw sq t nid 1 with
        | none => none
        | some r => descend g fw sq fuel r.1 r.2.1
      else some (t, nid)

/-- One simulation of `get_action_probs`: descend from the root to an
unvisited-or-terminal node, then
`curr_node.back_propagate(curr_node.V)`. -/
def simulate (g : GameAPI S) (fw : List S → List (List ℚ) × List ℚ)
    (sq : Nat → ℚ) (fuel : Nat) (t : MCTree S) : Option (MCTree S) :=
  (descend g fw sq fuel t t.root).bind fun r =>
  (r.1.get r.2).bind fun nd =>
  (back_propagate r.1.nodes r.2 nd.V fuel).map fun nodes' =>
    { nodes := nodes', root := r.1.root }

/-- The counting loop of `get_action_probs`:
`num_search = 0; while num_search < max_num_searches: …; num_search += 1`;
returns the loop state and the final counter. -/
def searchLoop (step : α → α) (max_num_searches : Nat) (t : α)
    (num_search : Nat) : α × Nat :=
  if num_search < max_num_searches then
    searchLoop step max_num_searches (step t) (num_search + 1)
  else (t, num_search)
termination_by max_num_searches - num_search

/-- The visit-count vector over the root's child slots:
`N = [child.N if child is not None else 0 for child in root.children]`
(a dangling index — impossible in trees the code builds — counts 0). -/
def rootChildCounts (t : MCTree S) : Option (List Nat) :=
  (t.get t.root).map fun nd =>
    nd.children.map fun c =>
      match c with
      | none => 0
      | some cid => ((t.get cid).map Node.N).getD 0

/-- `sklearn.preprocessing.normalize(row, norm='l1')`: divide by the sum
of absolute values; an all-zero row (zero norm) is returned unchanged
(sklearn substitutes norm 1 for zero norms). -/
noncomputable def l1normalize (xs : List ℝ) : List ℝ :=
  if (xs.map abs).sum = 0 then xs else xs.map (fun x => x / (xs.map abs).sum)

/-- The `pi` computation closing `get_action_probs`: for `temp > 0` the
L1-normalization of `N ** (1 / temp)` (a real power); otherwise (the
code's `else`, reached at `temp == 0`) the L1-normalization of the
indicator of `N == np.max(N)` (`np.max` modelled by `foldl max 0`; the
code's arrays are never empty). -/
noncomputable def piFromCounts (temp : ℚ) (N : List Nat) : List ℝ :=
  if 0 < temp then
    l1normalize (N.map (fun n : Nat => (n : ℝ) ^ (((1 / temp : ℚ) : ℝ))))
  else
    l1normalize
      (N.map (fun n : Nat => if n = N.foldl max 0 then (1 : ℝ) else 0))

/-- `MCTree.get_action_probs(max_num_searches, temp)`: assert
`max_num_searches > 0`; run the counted search loop; then build the
root-child visit counts and the `pi` vector.  The code returns only `pi`
(its docstring promises the pair `(pi, num_search)` — see C1). -/
noncomputable def get_action_probs (g : GameAPI S)
    (fw : List S → List (List ℚ) × List ℚ) (sq : Nat → ℚ) (t : MCTree S)
    (max_num_searches : Nat) (temp : ℚ) (fuel : Nat) : Option (List ℝ) :=
  if 0 < max_num_searches then
    (searchLoop (fun o => o.bind (simulate g fw sq fuel)) max_num_searches
        (some t) 0).1.bind fun t' =>
      (rootChildCounts t').map fun N => piFromCounts temp N
  else none

/-- `MCTree.__init__(state, forward_func)`: evaluate the initial state,
build the root node, `assert not self.root.visited()`, then
self-backpropagate the root's own value. -/
def MCTree.make (g : GameAPI S) (fw : List S → List (List ℚ) × List ℚ)
    (s : S) : Option (MCTree S) :=
  let out := fw [s]
  (out.1[0]?).bind fun pi0 =>
  (out.2[0]?).bind fun v0 =>
  (mkNode g none none pi0 v0 s).bind fun root =>
  if root.visited then none
  else (back_propagate [root] 0 root.V 1).map fun nodes =>
    { nodes := nodes, root := 0 }

/-- `MCTree.step(action)`: move the root down to the child for `action`.
A cached child becomes the root with its parent link cleared.  Otherwise
the successor state is computed, canonicalized, and the evaluator is
called on the canonical state — but, exactly as the source does, the
fresh parentless node is constructed with the non-canonical
`next_state`.  An unvisited new root self-backpropagates its value. -/
def MCTree.step (g : GameAPI S) (fw : List S → List (List ℚ) × List ℚ)
    (t : MCTree S) (action : Nat) (fuel : Nat) : Option (MCTree S) :=
  (t.get t.root).bind fun root =>
  (root.children[action]?).bind fun slot =>
  match slot with
  | some cid =>
    (t.get cid).bind fun ch =>
    let t' : MCTree S := ⟨t.nodes.set cid { ch with parent := none }, cid⟩
    if ch.visited then some t'
    else (back_propagate t'.nodes cid ch.V fuel).map fun ns => ⟨ns, cid⟩
  | none =>
    let next_state := g.get_next_state root.state action
    let next_turn := g.get_turn next_state
    let canonical_state := g.get_canonical_form next_state next_turn
    let out := fw [canonical_state]
    (out.1[0]?).bind fun pi0 =>
    (out.2[0]?).bind fun v0 =>
    (mkNode g none none pi0 v0 next_state).bind fun child =>
    let t' : MCTree S := ⟨t.nodes ++ [child], t.nodes.length⟩
    if child.visited then some t'
    else (back_propagate t'.nodes t.nodes.length child.V fuel).map fun ns =>
      ⟨ns, t.nodes.length⟩

/-- Fixture: a parentless, childless-slot root for the `step` analysis
(no cached child in any slot). -/
def rootW2 : Node Nat :=
  { parent := none, height := 0, children := [none, none]
    action_probs := [1, 0], state := 0, turn := 0, terminal := false
    N := 1, V := 0, Q_sum := 0 }

/-- Fixture tree for the `step` analysis. -/
def tW2 : MCTree Nat :=
  { nodes := [rootW2], root := 0 }

/-- Fixture: a terminal, parentless root with two empty child slots. -/
def ndTerm : Node Nat :=
  { parent := none, height := 0, children := [none, none]
    action_probs := [1, 0], state := 9, turn := 0, terminal := true
    N := 1, V := 0, Q_sum := 0 }

/-- Fixture tree with terminal root. -/
def tTerm : MCTree Nat :=
  { nodes := [ndTerm], root := 0 }

end GoAI

/-! ## Theorems -/

namespace GoAI

theorem isChain_set_notMem {S : Type} (nodes : List (Node S)) (x : Node S) :
    ∀ (l : List Nat) (j : Nat), j ∉ l → isChain (nodes.set j x) l = isChain nodes l := by
  intro l
  induction l with
  | nil => intro j _; rfl
  | cons c rest ih =>
    intro j hj
    have hjc : j ≠ c := fun h => hj (h ▸ List.mem_cons_self c rest)
    have hrest : j ∉ rest := fun h => hj (List.mem_cons_of_mem _ h)
    rw [isChain, isChain, List.getElem?_set_ne hjc]
    cases nodes[c]? with
    | none => rfl
    | some nd =>
      cases rest with
      | nil => rfl
      | cons c' rest' => rw [ih j hrest]

/-- C5: for every node with a non-null child in action slot `a`,
`avg_Q a` equals `-(child.V + child.Q_sum) / (1 + node.N)`; the
denominator `1 + node.N` is strictly positive (so the quotient is
well-defined — in Python, never NaN — in particular independently of
`child.N`, e.g. when `child.N = 0`), and the quotient genuinely inverts
the multiplication by the denominator. -/
theorem avg_Q_spec {S : Type} (nodes : List (Node S)) (nd : Node S)
    (move cid : Nat) (ch : Node S)
    (hslot : nd.children[move]? = some (some cid))
    (hch : nodes[cid]? = some ch) :
    avg_Q nodes nd move = some (-((ch.V + ch.Q_sum) / (1 + (nd.N : ℚ)))) ∧
      (0 : ℚ) < 1 + (nd.N : ℚ) ∧
      (-((ch.V + ch.Q_sum) / (1 + (nd.N : ℚ)))) * (1 + (nd.N : ℚ)) =
        -(ch.V + ch.Q_sum) := by
  have hpos : (0 : ℚ) < 1 + (nd.N : ℚ) := by positivity
  refine ⟨?_, hpos, ?_⟩
  · simp only [avg_Q, hslot, hch, Option.map_some']
  · field_simp

/-- Witness for C5 at a concrete arena: parent visited 3 times, child in
slot 0 with `child.N = 0`, `child.V = 2`, `child.Q_sum = 0`; the mean
value is `-2 / 4 = -1/2`. -/
theorem avg_Q_spec_witness :
    (nodesB[0]?.map (fun nd => nd.children[0]?) = some (some (some 1))) ∧
      avg_Q nodesB (testNode none [some 1] 3 0 0) 0 = some (-(1/2)) := by
  have h := avg_Q_spec nodesB (testNode none [some 1] 3 0 0) 0 1
    (testNode (some 0) [] 0 2 0) (by decide) rfl
  refine ⟨by decide, ?_⟩
  rw [h.1]
  norm_num [testNode]

/-- C7, counterexample: `is_leaf` is `True` on a node with `N = 1` whose
only child has been visited (`child.N = 1`), although the node *has* been
visited and the sum of its real children's visit counts is `1 > 0` — so
"true exactly when never visited or child-visit sum ≤ 0" fails. -/
theorem is_leaf_claim_counterexample :
    Node.is_leaf nodesA (testNode none [some 1] 1 0 0) = true ∧
      (testNode none [some 1] 1 0 0).visited = true ∧
      0 < childVisitSum nodesA (testNode none [some 1] 1 0 0) := by
  refine ⟨by decide, by decide, by decide⟩

/-- C7, amended: `is_leaf` returns `true` exactly when the node has been
visited *exactly once* (`N = 1`), or when the sum of visit counts over
all real (non-null) children is `0` (equivalently `≤ 0`, the counts being
naturals). -/
theorem is_leaf_iff {S : Type} (nodes : List (Node S)) (nd : Node S) :
    Node.is_leaf nodes nd = true ↔ nd.N = 1 ∨ childVisitSum nodes nd = 0 := by
  by_cases h : nd.N = 1 <;> simp [Node.is_leaf, h, Nat.le_zero]

theorem isChain_single {S : Type} (nodes : List (Node S)) (c : Nat) :
    isChain nodes [c] = true ↔ ∃ nd, nodes[c]? = some nd ∧ nd.parent = none := by
  rw [isChain]
  cases h : nodes[c]? with
  | none => simp
  | some nd => simp

theorem isChain_cons_cons {S : Type} (nodes : List (Node S)) (c c' : Nat)
    (rest : List Nat) :
    isChain nodes (c :: c' :: rest) = true ↔
      ∃ nd, nodes[c]? = some nd ∧ nd.parent = some c' ∧
        isChain nodes (c' :: rest) = true := by
  rw [isChain]
  cases h : nodes[c]? with
  | none => simp
  | some nd => simp

/-- C6: `back_propagate(v)` called at a node whose (acyclic) ancestor
chain is `nid :: rest` — each element's parent is the next one, the last
is the parentless root — increments `N` by exactly 1 at the node and at
every ancestor up to the root, adds `(-1)^i * v` to the `Q_sum` of the
`i`-th element of the path (so `+v` at the node, `-v` at its parent, `+v`
at its grandparent, …), terminates at the root, and leaves every node off
the path untouched. -/
theorem back_propagate_chain {S : Type} (rest : List Nat) :
    ∀ (nodes : List (Node S)) (nid : Nat) (v : ℚ) (fuel : Nat),
      isChain nodes (nid :: rest) = true →
      (nid :: rest).Nodup →
      (nid :: rest).length ≤ fuel →
      ∃ nodes', back_propagate nodes nid v fuel = some nodes' ∧
        (∀ i, (hi : i < (nid :: rest).length) →
          ∃ nd, nodes[(nid :: rest).get ⟨i, hi⟩]? = some nd ∧
            nodes'[(nid :: rest).get ⟨i, hi⟩]? =
              some { nd with N := nd.N + 1, Q_sum := nd.Q_sum + (-1) ^ i * v }) ∧
        (∀ j, j ∉ (nid :: rest) → nodes'[j]? = nodes[j]?) := by
  induction rest with
  | nil =>
    intro nodes nid v fuel hch hnd hfuel
    obtain ⟨f, rfl⟩ : ∃ f, fuel = f + 1 :=
      ⟨fuel - 1, by simp only [List.length_cons] at hfuel; omega⟩
    obtain ⟨nd, h, hpar⟩ := (isChain_single nodes nid).mp hch
    obtain ⟨hlt, -⟩ := List.getElem?_eq_some.mp h
    refine ⟨nodes.set nid { nd with N := nd.N + 1, Q_sum := nd.Q_sum + v },
      ?_, ?_, ?_⟩
    · simp only [back_propagate, h, hpar]
    · intro i hi
      have hi0 : i = 0 := by
        simp only [List.length_cons, List.length_nil] at hi; omega
      subst hi0
      refine ⟨nd, h, ?_⟩
      have e0 : ([nid] : List Nat).get ⟨0, hi⟩ = nid := rfl
      rw [e0, List.getElem?_set_eq_of_lt _ hlt]
      simp only [pow_zero, one_mul]
    · intro j hj
      have hne : nid ≠ j := fun e => hj (by simp [e])
      exact List.getElem?_set_ne hne
  | cons c' rest' ih =>
    intro nodes nid v fuel hch hnd hfuel
    obtain ⟨f, rfl⟩ : ∃ f, fuel = f + 1 :=
      ⟨fuel - 1, by simp only [List.length_cons] at hfuel; omega⟩
    obtain ⟨nd, h, hpar, hch'⟩ := (isChain_cons_cons nodes nid c' rest').mp hch
    obtain ⟨hlt, -⟩ := List.getElem?_eq_some.mp h
    rw [List.nodup_cons] at hnd
    obtain ⟨hnotmem, hnd'⟩ := hnd
    have hch1 : isChain
        (nodes.set nid { nd with N := nd.N + 1, Q_sum := nd.Q_sum + v })
        (c' :: rest') = true := by
      rw [isChain_set_notMem nodes _ (c' :: rest') nid hnotmem]; exact hch'
    have hfuel' : (c' :: rest').length ≤ f := by
      simp only [List.length_cons] at hfuel ⊢; omega
    obtain ⟨nodes'', hbp, hidx, hout⟩ :=
      ih (nodes.set nid { nd with N := nd.N + 1, Q_sum := nd.Q_sum + v })
        c' (-v) f hch1 hnd' hfuel'
    refine ⟨nodes'', ?_, ?_, ?_⟩
    · simp only [back_propagate, h, hpar]
      rw [hpar] at hbp
      exact hbp
    · intro i hi
      match i, hi with
      | 0, hi =>
        refine ⟨nd, h, ?_⟩
        have e0 : (nid :: c' :: rest').get ⟨0, hi⟩ = nid := rfl
        rw [e0, hout nid hnotmem, List.getElem?_set_eq_of_lt _ hlt]
        simp only [pow_zero, one_mul]
      | (k + 1), hi =>
        have hik : k < (c' :: rest').length := by
          simp only [List.length_cons] at hi ⊢; omega
        obtain ⟨nd', h', h''⟩ := hidx k hik
        have egt : (nid :: c' :: rest').get ⟨k + 1, hi⟩ =
            (c' :: rest').get ⟨k, hik⟩ := rfl
        rw [egt]
        have hmem : (c' :: rest').get ⟨k, hik⟩ ∈ (c' :: rest') :=
          List.get_mem _ _ _
        have hne : nid ≠ (c' :: rest').get ⟨k, hik⟩ := fun e => hnotmem (e ▸ hmem)
        rw [List.getElem?_set_ne hne] at h'
        refine ⟨nd', h', ?_⟩
        have ealt : (-1 : ℚ) ^ k * (-v) = (-1) ^ (k + 1) * v := by ring
        rw [ealt] at h''
        exact h''
    · intro j hj
      have hne : nid ≠ j := fun e => hj (e ▸ List.mem_cons_self _ _)
      have hj' : j ∉ (c' :: rest') := fun e => hj (List.mem_cons_of_mem _ e)
      rw [hout j hj', List.getElem?_set_ne hne]

theorem partitionOne_spec {S : Type} (g : GameAPI S) (s : S) :
    ∀ (ms : List Nat) (B : List (List ℚ)) (C : List ℚ)
      (css₀ : List S) (cpis₀ : List (List ℚ)) (cvals₀ : List ℚ),
      (∀ m ∈ ms, m < (g.get_valid_moves s).length) →
      B.length = (ms.filter (validAt (g.get_valid_moves s))).length →
      C.length = (ms.filter (validAt (g.get_valid_moves s))).length →
      ∃ qs,
        partitionOne g s ms
          ((ms.filter (validAt (g.get_valid_moves s))).map (canonicalNext g s)
            ++ css₀)
          (B ++ cpis₀) (C ++ cvals₀) = some (B, qs, (css₀, cpis₀, cvals₀)) ∧
        qs.length = ms.length ∧
        ∀ j, (hj : j < ms.length) →
          qs.getD j 0 =
            if validAt (g.get_valid_moves s) (ms.get ⟨j, hj⟩) then
              -(if g.get_game_ended (canonicalNext g s (ms.get ⟨j, hj⟩)) then
                  canonical_winning g (canonicalNext g s (ms.get ⟨j, hj⟩))
                else
                  C.getD
                    ((ms.take j).filter (validAt (g.get_valid_moves s))).length
                    0)
            else 0 := by
  intro ms
  induction ms with
  | nil =>
    intro B C css₀ cpis₀ cvals₀ hms hB hC
    have hB0 : B = [] := List.length_eq_zero.mp (by simpa using hB)
    have hC0 : C = [] := List.length_eq_zero.mp (by simpa using hC)
    subst hB0 hC0
    exact ⟨[], by simp [partitionOne], rfl, fun j hj => by simp at hj⟩
  | cons m ms ih =>
    intro B C css₀ cpis₀ cvals₀ hms hB hC
    have hm : m < (g.get_valid_moves s).length := hms m (List.mem_cons_self _ _)
    have hlook : (g.get_valid_moves s)[m]? =
        some (validAt (g.get_valid_moves s) m) := by
      rw [List.getElem?_eq_getElem hm, validAt, List.getD_eq_getElem _ _ hm]
    have hms' : ∀ x ∈ ms, x < (g.get_valid_moves s).length :=
      fun x hx => hms x (List.mem_cons_of_mem _ hx)
    cases hval : validAt (g.get_valid_moves s) m with
    | true =>
      rw [List.filter_cons_of_pos hval] at hB hC
      cases B with
      | nil => simp at hB
      | cons b B' =>
        cases C with
        | nil => simp at hC
        | cons c C' =>
          simp only [List.length_cons] at hB hC
          obtain ⟨qs', heq, hlen, hq⟩ :=
            ih B' C' css₀ cpis₀ cvals₀ hms' (by omega) (by omega)
          refine ⟨-(if g.get_game_ended (canonicalNext g s m) then
              canonical_winning g (canonicalNext g s m) else c) :: qs',
            ?_, by simpa using hlen, ?_⟩
          · rw [List.filter_cons_of_pos hval]
            simp only [List.map_cons, List.cons_append, partitionOne, hlook,
              hval, if_true, heq, Option.map_some']
          · intro j hj
            match j, hj with
            | 0, hj =>
              simp [hval]
            | (k + 1), hj =>
              have hk : k < ms.length := by
                simp only [List.length_cons] at hj; omega
              have e1 : ((m :: ms).take (k + 1)).filter
                    (validAt (g.get_valid_moves s)) =
                  m :: (ms.take k).filter (validAt (g.get_valid_moves s)) := by
                rw [List.take_succ_cons, List.filter_cons_of_pos hval]
              have e2 := hq k hk
              simp only [List.get_cons_succ, e1, List.length_cons,
                List.getD_cons_succ]
              exact e2
    | false =>
      rw [List.filter_cons_of_neg (by simp [hval])] at hB hC
      obtain ⟨qs', heq, hlen, hq⟩ := ih B C css₀ cpis₀ cvals₀ hms' hB hC
      refine ⟨(0 : ℚ) :: qs', ?_, by simpa using hlen, ?_⟩
      · rw [List.filter_cons_of_neg (by simp [hval])]
        simp only [partitionOne, hlook, hval, if_false, heq, Option.map_some',
          Bool.false_eq_true]
      · intro j hj
        match j, hj with
        | 0, hj => simp [hval]
        | (k + 1), hj =>
          have hk : k < ms.length := by
            simp only [List.length_cons] at hj; omega
          have e1 : ((m :: ms).take (k + 1)).filter
                (validAt (g.get_valid_moves s)) =
              (ms.take k).filter (validAt (g.get_valid_moves s)) := by
            rw [List.take_succ_cons, List.filter_cons_of_neg (by simp [hval])]
          have e2 := hq k hk
          simp only [List.get_cons_succ, e1, List.getD_cons_succ]
          exact e2

/-- Witness for C6 on the two-node arena `nodesA` (child 1 below root 0):
backpropagating `v = 1` from node 1 with the chain `[1, 0]`. -/
theorem back_propagate_chain_witness :
    isChain nodesA [1, 0] = true ∧ ([1, 0] : List Nat).Nodup ∧
      (∃ nodes', back_propagate nodesA 1 1 2 = some nodes' ∧
        (∀ i, (hi : i < ([1, 0] : List Nat).length) →
          ∃ nd, nodesA[([1, 0] : List Nat).get ⟨i, hi⟩]? = some nd ∧
            nodes'[([1, 0] : List Nat).get ⟨i, hi⟩]? =
              some { nd with N := nd.N + 1, Q_sum := nd.Q_sum + (-1) ^ i * 1 }) ∧
        (∀ j, j ∉ ([1, 0] : List Nat) → nodes'[j]? = nodesA[j]?)) :=
  ⟨by decide, by decide,
    back_propagate_chain [0] nodesA 1 1 2 (by decide) (by decide) (by decide)⟩

theorem expansionsBefore_zero {S : Type} (g : GameAPI S) (states : List S) :
    expansionsBefore g states 0 = 0 := rfl

theorem expansionsBefore_cons_succ {S : Type} (g : GameAPI S) (s : S)
    (rest : List S) (i : Nat) :
    expansionsBefore g (s :: rest) (i + 1) =
      numValid g s + expansionsBefore g rest i := by
  simp [expansionsBefore, List.take_succ_cons]

theorem filter_range_eq_argwherePos {S : Type} (g : GameAPI S) (s : S)
    (hvs : (g.get_valid_moves s).length = g.get_action_size s) :
    (List.range (g.get_action_size s)).filter (validAt (g.get_valid_moves s)) =
      argwherePos (g.get_valid_moves s) := by
  rw [argwherePos, hvs]

theorem validBelow_lt_numValid {S : Type} (g : GameAPI S) (s : S) (m : Nat)
    (hm : m < (g.get_valid_moves s).length)
    (hv : validAt (g.get_valid_moves s) m = true) :
    validBelow g s m < numValid g s := by
  have h1 : ((List.range (m + 1)).filter (validAt (g.get_valid_moves s))).length
      = validBelow g s m + 1 := by
    rw [show m + 1 = Nat.succ m from rfl, List.range_succ, List.filter_append]
    simp [validBelow, List.filter, hv]
  have h2 : (List.range (m + 1)).Sublist
      (List.range (g.get_valid_moves s).length) :=
    List.range_sublist.mpr hm
  have h3 := h2.countP_le (validAt (g.get_valid_moves s))
  rw [List.countP_eq_length_filter, List.countP_eq_length_filter] at h3
  rw [h1] at h3
  have : numValid g s =
      ((List.range (g.get_valid_moves s).length).filter
        (validAt (g.get_valid_moves s))).length := rfl
  omega

theorem flatCanonicalChildren_cons {S : Type} (g : GameAPI S) (s : S)
    (rest : List S) :
    flatCanonicalChildren g (s :: rest) =
      (argwherePos (g.get_valid_moves s)).map (canonicalNext g s) ++
        flatCanonicalChildren g rest := by
  simp [flatCanonicalChildren]

theorem getD_take_of_lt {α : Type} [Inhabited α] (l : List α) (k x : Nat)
    (d : α) (h : x < k) : (l.take k).getD x d = l.getD x d := by
  rw [List.getD_eq_getElem?_getD, List.getD_eq_getElem?_getD,
    List.getElem?_take, if_pos h]

theorem getD_drop {α : Type} [Inhabited α] (l : List α) (i j : Nat) (d : α) :
    (l.drop i).getD j d = l.getD (i + j) d := by
  rw [List.getD_eq_getElem?_getD, List.getD_eq_getElem?_getD,
    List.getElem?_drop]

theorem partitionAll_spec {S : Type} (g : GameAPI S) :
    ∀ (states : List S) (cpis : List (List ℚ)) (cvals : List ℚ),
      (∀ s ∈ states, (g.get_valid_moves s).length = g.get_action_size s) →
      cpis.length = (flatCanonicalChildren g states).length →
      cvals.length = (flatCanonicalChildren g states).length →
      ∃ bpis bqs,
        partitionAll g states (flatCanonicalChildren g states) cpis cvals =
          some (bpis, bqs, ([], [], [])) ∧
        bpis.length = states.length ∧ bqs.length = states.length ∧
        (∀ i, (hi : i < states.length) →
          bpis.getD i [] =
            (cpis.drop (expansionsBefore g states i)).take
              (numValid g (states.get ⟨i, hi⟩))) ∧
        (∀ i, (hi : i < states.length) →
          (bqs.getD i []).length = g.get_action_size (states.get ⟨i, hi⟩) ∧
          ∀ m, m < g.get_action_size (states.get ⟨i, hi⟩) →
            (bqs.getD i []).getD m 0 =
              if validAt (g.get_valid_moves (states.get ⟨i, hi⟩)) m then
                -(if g.get_game_ended (canonicalNext g (states.get ⟨i, hi⟩) m) then
                    canonical_winning g (canonicalNext g (states.get ⟨i, hi⟩) m)
                  else
                    cvals.getD
                      (expansionsBefore g states i +
                        validBelow g (states.get ⟨i, hi⟩) m) 0)
              else 0) := by
  intro states
  induction states with
  | nil =>
    intro cpis cvals hvm hp hv
    have hp0 : cpis = [] := List.length_eq_zero.mp (by simpa [flatCanonicalChildren] using hp)
    have hv0 : cvals = [] := List.length_eq_zero.mp (by simpa [flatCanonicalChildren] using hv)
    subst hp0 hv0
    exact ⟨[], [], rfl, rfl, rfl, fun i hi => by simp at hi, fun i hi => by simp at hi⟩
  | cons s rest ih =>
    intro cpis cvals hvm hp hv
    have hvs : (g.get_valid_moves s).length = g.get_action_size s :=
      hvm s (List.mem_cons_self _ _)
    have hvm' : ∀ x ∈ rest, (g.get_valid_moves x).length = g.get_action_size x :=
      fun x hx => hvm x (List.mem_cons_of_mem _ hx)
    have hflat := flatCanonicalChildren_cons g s rest
    have hlenflat : (flatCanonicalChildren g (s :: rest)).length =
        numValid g s + (flatCanonicalChildren g rest).length := by
      rw [hflat]; simp [numValid]
    have hkp : numValid g s ≤ cpis.length := by omega
    have hkv : numValid g s ≤ cvals.length := by omega
    have hms : ∀ m ∈ List.range (g.get_action_size s),
        m < (g.get_valid_moves s).length := by
      intro m hm; rw [hvs]; exact List.mem_range.mp hm
    have hlenB : (cpis.take (numValid g s)).length =
        ((List.range (g.get_action_size s)).filter
          (validAt (g.get_valid_moves s))).length := by
      rw [filter_range_eq_argwherePos g s hvs, List.length_take]
      exact Nat.min_eq_left hkp
    have hlenC : (cvals.take (numValid g s)).length =
        ((List.range (g.get_action_size s)).filter
          (validAt (g.get_valid_moves s))).length := by
      rw [filter_range_eq_argwherePos g s hvs, List.length_take]
      exact Nat.min_eq_left hkv
    obtain ⟨qs, heq1, hqlen, hq⟩ :=
      partitionOne_spec g s (List.range (g.get_action_size s))
        (cpis.take (numValid g s)) (cvals.take (numValid g s))
        (flatCanonicalChildren g rest)
        (cpis.drop (numValid g s)) (cvals.drop (numValid g s))
        hms hlenB hlenC
    have hdp : (cpis.drop (numValid g s)).length =
        (flatCanonicalChildren g rest).length := by
      rw [List.length_drop]; omega
    have hdv : (cvals.drop (numValid g s)).length =
        (flatCanonicalChildren g rest).length := by
      rw [List.length_drop]; omega
    obtain ⟨bpis', bqs', heq2, hbl', hql', hbp', hbq'⟩ :=
      ih (cpis.drop (numValid g s)) (cvals.drop (numValid g s)) hvm' hdp hdv
    refine ⟨cpis.take (numValid g s) :: bpis', qs :: bqs', ?_, ?_, ?_, ?_, ?_⟩
    · have harg : (List.range (g.get_action_size s)).filter
            (validAt (g.get_valid_moves s)) = argwherePos (g.get_valid_moves s) :=
        filter_range_eq_argwherePos g s hvs
      rw [harg, List.take_append_drop, List.take_append_drop, ← hflat] at heq1
      simp only [partitionAll]
      rw [heq1, Option.some_bind, heq2, Option.map_some']
    · simp [hbl']
    · simp [hql']
    · intro i hi
      match i, hi with
      | 0, hi =>
        simp [expansionsBefore_zero]
      | (k + 1), hi =>
        have hk : k < rest.length := by simp at hi; omega
        have e := hbp' k hk
        simp only [List.getD_cons_succ, List.get_cons_succ,
          expansionsBefore_cons_succ]
        rw [e, List.drop_drop]
    · intro i hi
      match i, hi with
      | 0, hi =>
        have h0 : (s :: rest).get ⟨0, hi⟩ = s := rfl
        rw [h0]
        simp only [List.getD_cons_zero, expansionsBefore_zero, Nat.zero_add]
        refine ⟨by simpa using hqlen, ?_⟩
        intro m hm
        have hmr : m < (List.range (g.get_action_size s)).length := by
          simpa using hm
        have e := hq m hmr
        have egetr : (List.range (g.get_action_size s)).get ⟨m, hmr⟩ = m := by
          simp
        rw [egetr] at e
        have etake : (List.range (g.get_action_size s)).take m = List.range m := by
          rw [List.take_range]
          congr 1
          omega
        rw [etake] at e
        rw [e]
        cases hval : validAt (g.get_valid_moves s) m with
        | false => simp [hval]
        | true =>
          cases hterm : g.get_game_ended (canonicalNext g s m) with
          | true => simp [hval, hterm]
          | false =>
            have hlt : validBelow g s m < numValid g s :=
              validBelow_lt_numValid g s m (by omega) hval
            simp only [hval, hterm, if_true, Bool.false_eq_true, if_false]
            rw [show ((List.range m).filter
                (validAt (g.get_valid_moves s))).length = validBelow g s m
                from rfl]
            rw [getD_take_of_lt _ _ _ _ hlt]
      | (k + 1), hi =>
        have hk : k < rest.length := by simp at hi; omega
        obtain ⟨e1, e2⟩ := hbq' k hk
        refine ⟨by simpa using e1, ?_⟩
        intro m hm
        have e := e2 m (by simpa using hm)
        simp only [List.getD_cons_succ, List.get_cons_succ,
          expansionsBefore_cons_succ] at e ⊢
        rw [e, getD_drop]
        ring_nf


/-- C8: for every batch of states (whose valid-move vectors cover the
action range), when the evaluator returns exactly one prior and one value
per requested expansion, `get_immediate_lookahead` succeeds; the
evaluator is applied once, to the flat concatenation of the canonical
successors of all legal actions of all batch states in order (the
returned state list is exactly that concatenation, and all priors/values
are read off that single application); state `i`'s priors are the
`i`-th consecutive block of the evaluator's priors; and state `i`'s
per-action q-value vector has length `action_size`, gives `0` to every
illegal action, and gives a legal action `m` the value
`-(if terminal then area-outcome else evaluator-value at the flat
position of `(i, m)`)` — terminal canonical successors override the
evaluator value with `canonical_winning`, and every stored q-value is
negated into the parent's perspective. -/
theorem get_immediate_lookahead_spec {S : Type} (g : GameAPI S)
    (forward : List S → List (List ℚ) × List ℚ) (states : List S)
    (hvm : ∀ s ∈ states, (g.get_valid_moves s).length = g.get_action_size s)
    (hp : (forward (flatCanonicalChildren g states)).1.length =
      (flatCanonicalChildren g states).length)
    (hv : (forward (flatCanonicalChildren g states)).2.length =
      (flatCanonicalChildren g states).length) :
    ∃ bpis bqs,
      get_immediate_lookahead g forward states =
        some (bpis, bqs, flatCanonicalChildren g states) ∧
      bpis.length = states.length ∧ bqs.length = states.length ∧
      (∀ i, (hi : i < states.length) →
        bpis.getD i [] =
          ((forward (flatCanonicalChildren g states)).1.drop
            (expansionsBefore g states i)).take
            (numValid g (states.get ⟨i, hi⟩))) ∧
      (∀ i, (hi : i < states.length) →
        (bqs.getD i []).length = g.get_action_size (states.get ⟨i, hi⟩) ∧
        ∀ m, m < g.get_action_size (states.get ⟨i, hi⟩) →
          (bqs.getD i []).getD m 0 =
            if validAt (g.get_valid_moves (states.get ⟨i, hi⟩)) m then
              -(if g.get_game_ended (canonicalNext g (states.get ⟨i, hi⟩) m) then
                  canonical_winning g (canonicalNext g (states.get ⟨i, hi⟩) m)
                else
                  (forward (flatCanonicalChildren g states)).2.getD
                    (expansionsBefore g states i +
                      validBelow g (states.get ⟨i, hi⟩) m) 0)
            else 0) := by
  obtain ⟨bpis, bqs, heq, hbl, hql, hbp, hbq⟩ :=
    partitionAll_spec g states (forward (flatCanonicalChildren g states)).1
      (forward (flatCanonicalChildren g states)).2 hvm hp hv
  refine ⟨bpis, bqs, ?_, hbl, hql, hbp, hbq⟩
  simp only [get_immediate_lookahead]
  rw [heq]
  simp

/-- Witness for C8: the concrete game `gW`, evaluator `forwardW`, batch
`[0]`.  Move 0 leads to canonical state 11 (terminal, areas 11 > 1, so
q-value `-1`); move 1 leads to canonical state 2 (non-terminal, evaluator
value 2, so q-value `-2`). -/
theorem get_immediate_lookahead_spec_witness :
    (∀ s ∈ [0], (gW.get_valid_moves s).length = gW.get_action_size s) ∧
      (∃ bpis bqs,
        get_immediate_lookahead gW forwardW [0] =
          some (bpis, bqs, flatCanonicalChildren gW [0]) ∧
        bpis.length = ([0] : List Nat).length ∧
        bqs.length = ([0] : List Nat).length ∧
        (∀ i, (hi : i < ([0] : List Nat).length) →
          bpis.getD i [] =
            ((forwardW (flatCanonicalChildren gW [0])).1.drop
              (expansionsBefore gW [0] i)).take
              (numValid gW (([0] : List Nat).get ⟨i, hi⟩))) ∧
        (∀ i, (hi : i < ([0] : List Nat).length) →
          (bqs.getD i []).length =
            gW.get_action_size (([0] : List Nat).get ⟨i, hi⟩) ∧
          ∀ m, m < gW.get_action_size (([0] : List Nat).get ⟨i, hi⟩) →
            (bqs.getD i []).getD m 0 =
              if validAt (gW.get_valid_moves (([0] : List Nat).get ⟨i, hi⟩)) m then
                -(if gW.get_game_ended
                      (canonicalNext gW (([0] : List Nat).get ⟨i, hi⟩) m) then
                    canonical_winning gW
                      (canonicalNext gW (([0] : List Nat).get ⟨i, hi⟩) m)
                  else
                    (forwardW (flatCanonicalChildren gW [0])).2.getD
                      (expansionsBefore gW [0] i +
                        validBelow gW (([0] : List Nat).get ⟨i, hi⟩) m) 0)
              else 0)) :=
  ⟨by decide,
    get_immediate_lookahead_spec gW forwardW [0] (by decide) (by decide)
      (by decide)⟩

theorem ucbLoop_eq_foldBest {S : Type} (sq : Nat → ℚ) (nodes : List (Node S))
    (nd : Node S) (u : ℚ) (f : Nat → ℚ) :
    ∀ (l : List Nat) (best : Option Nat) (q : WithBot ℚ),
      (∀ m ∈ l, ucbScore sq nodes nd u m = some (f m)) →
      ucbLoop sq nodes nd u l best q = some (foldBest f l best q) := by
  intro l
  induction l with
  | nil => intro best q _; rfl
  | cons m rest ih =>
    intro best q h
    have hm := h m (List.mem_cons_self _ _)
    have hrest : ∀ x ∈ rest, ucbScore sq nodes nd u x = some (f x) :=
      fun x hx => h x (List.mem_cons_of_mem _ hx)
    simp only [ucbLoop, foldBest, hm]
    by_cases hq : q < (f m : WithBot ℚ)
    · rw [if_pos hq, if_pos hq]
      exact ih _ _ hrest
    · rw [if_neg hq, if_neg hq]
      exact ih _ _ hrest

theorem foldBest_some_spec (f : Nat → ℚ) :
    ∀ (l : List Nat) (b : Nat),
      ∃ c, foldBest f l (some b) ((f b : ℚ) : WithBot ℚ) = some c ∧
        ((c = b ∧ ∀ m ∈ l, f m ≤ f b) ∨
         (∃ pre post, l = pre ++ c :: post ∧ f b < f c ∧
           (∀ m ∈ pre, f m < f c) ∧ (∀ m ∈ post, f m ≤ f c))) := by
  intro l
  induction l with
  | nil => exact fun b => ⟨b, rfl, Or.inl ⟨rfl, by simp⟩⟩
  | cons m rest ih =>
    intro b
    by_cases h : f b < f m
    · obtain ⟨c, hc, hca⟩ := ih m
      refine ⟨c, ?_, ?_⟩
      · rw [foldBest, if_pos (by exact_mod_cast h)]
        exact hc
      · rcases hca with ⟨rfl, hall⟩ | ⟨pre, post, hpp, hbc, hpre, hpost⟩
        · exact Or.inr ⟨[], rest, by simp, h, by simp, hall⟩
        · refine Or.inr ⟨m :: pre, post, by simp [hpp], lt_trans h hbc, ?_, hpost⟩
          intro x hx
          rcases List.mem_cons.mp hx with rfl | hx'
          exacts [hbc, hpre x hx']
    · obtain ⟨c, hc, hca⟩ := ih b
      refine ⟨c, ?_, ?_⟩
      · rw [foldBest, if_neg (by exact_mod_cast h)]
        exact hc
      · rcases hca with ⟨rfl, hall⟩ | ⟨pre, post, hpp, hbc, hpre, hpost⟩
        · refine Or.inl ⟨rfl, ?_⟩
          intro x hx
          rcases List.mem_cons.mp hx with rfl | hx'
          exacts [not_lt.mp h, hall x hx']
        · refine Or.inr ⟨m :: pre, post, by simp [hpp], hbc, ?_, hpost⟩
          intro x hx
          rcases List.mem_cons.mp hx with rfl | hx'
          exacts [lt_of_le_of_lt (not_lt.mp h) hbc, hpre x hx']

theorem foldBest_none_spec (f : Nat → ℚ) (l : List Nat) (hl : l ≠ []) :
    ∃ c pre post, foldBest f l none ⊥ = some c ∧ l = pre ++ c :: post ∧
      (∀ m ∈ pre, f m < f c) ∧ (∀ m ∈ post, f m ≤ f c) := by
  cases l with
  | nil => exact absurd rfl hl
  | cons m rest =>
    have h0 : foldBest f (m :: rest) none ⊥ =
        foldBest f rest (some m) ((f m : ℚ) : WithBot ℚ) := by
      rw [foldBest, if_pos (WithBot.bot_lt_coe _)]
    obtain ⟨c, hc, hca⟩ := foldBest_some_spec f rest m
    rcases hca with ⟨rfl, hall⟩ | ⟨pre, post, hpp, hbc, hpre, hpost⟩
    · exact ⟨c, [], rest, by rw [h0, hc], by simp, by simp, hall⟩
    · refine ⟨c, m :: pre, post, by rw [h0, hc], by simp [hpp], ?_, hpost⟩
      intro x hx
      rcases List.mem_cons.mp hx with rfl | hx'
      exacts [hbc, hpre x hx']

theorem ucbScore_inv {S : Type} (sq : Nat → ℚ) (nodes : List (Node S))
    (nd : Node S) (u : ℚ) (m : Nat) (q : ℚ)
    (h : ucbScore sq nodes nd u m = some q) :
    ∃ cid child Psa, nd.children[m]? = some (some cid) ∧
      nodes[cid]? = some child ∧ nd.action_probs[m]? = some Psa ∧
      avg_Q nodes nd m = some (-((child.V + child.Q_sum) / (1 + (nd.N : ℚ)))) ∧
      q = -((child.V + child.Q_sum) / (1 + (nd.N : ℚ))) +
        u * Psa * sq nd.N / (1 + (child.N : ℚ)) := by
  rw [ucbScore] at h
  cases havg : avg_Q nodes nd m with
  | none => rw [havg] at h; simp at h
  | some Q =>
    rw [havg] at h
    simp only [Option.some_bind] at h
    cases hslot : nd.children[m]? with
    | none => rw [hslot] at h; simp at h
    | some slot =>
      rw [hslot] at h
      simp only [Option.some_bind] at h
      cases slot with
      | none => simp at h
      | some cid =>
        simp only [Option.some_bind] at h
        cases hchild : nodes[cid]? with
        | none => rw [hchild] at h; simp at h
        | some child =>
          rw [hchild] at h
          simp only [Option.some_bind] at h
          cases hprob : nd.action_probs[m]? with
          | none => rw [hprob] at h; simp at h
          | some Psa =>
            rw [hprob] at h
            simp only [Option.map_some', Option.some.injEq] at h
            have hQ : -((child.V + child.Q_sum) / (1 + (nd.N : ℚ))) = Q := by
              have hc := havg
              simp only [avg_Q, hslot, hchild, Option.map_some',
                Option.some.injEq] at hc
              exact hc
            refine ⟨cid, child, Psa, rfl, hchild, rfl, ?_, ?_⟩
            · exact congrArg some hQ.symm
            · rw [← h, hQ]

/-- C3: with `exploration_constant = 1` and already-cached children, every
legal action's score is
`avg_Q(move) + 1 * prior[move] * sqrt(node.N) / (1 + child.N)` (with
`sqrt` the external `np.sqrt`, modelled by the parameter `sq`), and
`select_best_child` returns the first strict maximum found scanning the
legal actions in ascending index order: every earlier legal action scores
strictly less, every later one scores at most as much, so among
equal-score actions the lowest index is kept. -/
theorem select_best_child_spec {S : Type} (g : GameAPI S)
    (fw : List S → List (List ℚ) × List ℚ) (sq : Nat → ℚ) (t : MCTree S)
    (nid : Nat) (nd : Node S) (f : Nat → ℚ)
    (hnd : t.get nid = some nd)
    (hcached : nd.cached_children = true)
    (hscore : ∀ m ∈ argwherePos (g.get_valid_moves nd.state),
      ucbScore sq t.nodes nd 1 m = some (f m))
    (hne : argwherePos (g.get_valid_moves nd.state) ≠ []) :
    ∃ best cid pre post,
      select_best_child g fw sq t nid 1 = some (t, cid, best) ∧
      nd.children[best]? = some (some cid) ∧
      argwherePos (g.get_valid_moves nd.state) = pre ++ best :: post ∧
      (∀ m ∈ pre, f m < f best) ∧
      (∀ m ∈ post, f m ≤ f best) ∧
      (∀ m ∈ argwherePos (g.get_valid_moves nd.state), f m ≤ f best) ∧
      (∀ m ∈ argwherePos (g.get_valid_moves nd.state),
        f m = f best → best ≤ m) ∧
      (∀ m ∈ argwherePos (g.get_valid_moves nd.state),
        ∀ cid' child Psa, nd.children[m]? = some (some cid') →
          t.nodes[cid']? = some child → nd.action_probs[m]? = some Psa →
          f m = -((child.V + child.Q_sum) / (1 + (nd.N : ℚ))) +
            1 * Psa * sq nd.N / (1 + (child.N : ℚ))) := by
  obtain ⟨c, pre, post, hfold, hsplit, hpre, hpost⟩ :=
    foldBest_none_spec f (argwherePos (g.get_valid_moves nd.state)) hne
  have hcmem : c ∈ argwherePos (g.get_valid_moves nd.state) := by
    rw [hsplit]; exact List.mem_append_right _ (List.mem_cons_self _ _)
  obtain ⟨cid, child, Psa, hslot, hchild, hprob, havg, hform⟩ :=
    ucbScore_inv sq t.nodes nd 1 c (f c) (hscore c hcmem)
  have hloop := ucbLoop_eq_foldBest sq t.nodes nd 1 f
    (argwherePos (g.get_valid_moves nd.state)) none ⊥ hscore
  have hmax : ∀ m ∈ argwherePos (g.get_valid_moves nd.state), f m ≤ f c := by
    intro m hm
    rw [hsplit] at hm
    rcases List.mem_append.mp hm with hm' | hm'
    · exact le_of_lt (hpre m hm')
    · rcases List.mem_cons.mp hm' with rfl | hm''
      · exact le_refl _
      · exact hpost m hm''
  have hsorted : (argwherePos (g.get_valid_moves nd.state)).Pairwise (· < ·) :=
    (List.pairwise_lt_range _).filter _
  have hlow : ∀ m ∈ argwherePos (g.get_valid_moves nd.state),
      f m = f c → c ≤ m := by
    intro m hm hfm
    rw [hsplit] at hm hsorted
    rcases List.mem_append.mp hm with hm' | hm'
    · exact absurd hfm (ne_of_lt (hpre m hm'))
    · rcases List.mem_cons.mp hm' with rfl | hm''
      · exact le_refl _
      · exact le_of_lt
          ((List.pairwise_cons.mp (List.pairwise_append.mp hsorted).2.1).1 m hm'')
  refine ⟨c, cid, pre, post, ?_, hslot, hsplit, hpre, hpost, hmax, hlow, ?_⟩
  · simp only [select_best_child, hnd, Option.some_bind, hcached, if_true,
      hloop, hfold, Option.some_bind, hslot]
    rfl
  · intro m hm cid' child' Psa' hslot' hchild' hprob'
    obtain ⟨cid2, child2, Psa2, hslot2, hchild2, hprob2, _, hform2⟩ :=
      ucbScore_inv sq t.nodes nd 1 m (f m) (hscore m hm)
    rw [hslot'] at hslot2
    have ecid : cid' = cid2 := by
      simpa using hslot2
    rw [← ecid] at hchild2
    rw [hchild'] at hchild2
    have echild : child' = child2 := by simpa using hchild2
    rw [hprob'] at hprob2
    have eprob : Psa' = Psa2 := by simpa using hprob2
    rw [hform2, ← echild, ← eprob]



/-- Witness for C3 on the concrete tree `tW3` under the game `gW`: both
moves are legal, the children are cached, and every hypothesis is
discharged concretely. -/
theorem select_best_child_spec_witness :
    tW3.get 0 = some rootW3 ∧ rootW3.cached_children = true ∧
      argwherePos (gW.get_valid_moves rootW3.state) ≠ [] ∧
      (∃ best cid pre post,
        select_best_child gW forwardW (fun n => (n : ℚ)) tW3 0 1 =
          some (tW3, cid, best) ∧
        rootW3.children[best]? = some (some cid) ∧
        argwherePos (gW.get_valid_moves rootW3.state) = pre ++ best :: post ∧
        (∀ m ∈ pre, fW3 m < fW3 best) ∧
        (∀ m ∈ post, fW3 m ≤ fW3 best) ∧
        (∀ m ∈ argwherePos (gW.get_valid_moves rootW3.state),
          fW3 m ≤ fW3 best) ∧
        (∀ m ∈ argwherePos (gW.get_valid_moves rootW3.state),
          fW3 m = fW3 best → best ≤ m) ∧
        (∀ m ∈ argwherePos (gW.get_valid_moves rootW3.state),
          ∀ cid' child Psa, rootW3.children[m]? = some (some cid') →
            tW3.nodes[cid']? = some child →
            rootW3.action_probs[m]? = some Psa →
            fW3 m = -((child.V + child.Q_sum) / (1 + (rootW3.N : ℚ))) +
              1 * Psa * (fun n => (n : ℚ)) rootW3.N / (1 + (child.N : ℚ)))) :=
  ⟨rfl, by decide, by decide,
    select_best_child_spec gW forwardW (fun n => (n : ℚ)) tW3 0 rootW3 fW3
      rfl (by decide) (by intro m hm; fin_cases hm <;> rfl) (by decide)⟩


theorem partitionOne_consumes {S : Type} (g : GameAPI S) (s : S) :
    ∀ (ms : List Nat) (css : List S) (cpis : List (List ℚ)) (cvals : List ℚ)
      (ps : List (List ℚ)) (qs : List ℚ)
      (rest3 : List S × List (List ℚ) × List ℚ),
      (∀ m ∈ ms, m < (g.get_valid_moves s).length) →
      partitionOne g s ms css cpis cvals = some (ps, qs, rest3) →
      cpis.length = (ms.filter (validAt (g.get_valid_moves s))).length +
        rest3.2.1.length ∧
      cvals.length = (ms.filter (validAt (g.get_valid_moves s))).length +
        rest3.2.2.length := by
  intro ms
  induction ms with
  | nil =>
    intro css cpis cvals ps qs rest3 hms h
    simp only [partitionOne, Option.some.injEq, Prod.mk.injEq] at h
    obtain ⟨-, -, hr⟩ := h
    rw [← hr]
    simp
  | cons m ms ih =>
    intro css cpis cvals ps qs rest3 hms h
    have hm : m < (g.get_valid_moves s).length := hms m (List.mem_cons_self _ _)
    have hms' : ∀ x ∈ ms, x < (g.get_valid_moves s).length :=
      fun x hx => hms x (List.mem_cons_of_mem _ hx)
    have hlook : (g.get_valid_moves s)[m]? =
        some (validAt (g.get_valid_moves s) m) := by
      rw [List.getElem?_eq_getElem hm, validAt, List.getD_eq_getElem _ _ hm]
    simp only [partitionOne, hlook] at h
    cases hval : validAt (g.get_valid_moves s) m with
    | true =>
      rw [hval] at h
      simp only [if_true] at h
      cases css with
      | nil => simp at h
      | cons cs css' =>
        cases cpis with
        | nil => simp at h
        | cons cpi cpis' =>
          cases cvals with
          | nil => simp at h
          | cons v cvals' =>
            rw [Option.map_eq_some'] at h
            obtain ⟨r, hr, hf⟩ := h
            obtain ⟨h1, h2, h3⟩ : cpi :: r.1 = ps ∧ _ :: r.2.1 = qs ∧
                r.2.2 = rest3 := by
              simpa [Prod.ext_iff] using hf
            obtain ⟨ih1, ih2⟩ := ih css' cpis' cvals' r.1 r.2.1 r.2.2 hms' (by
              rw [hr])
            rw [List.filter_cons_of_pos hval, ← h3]
            constructor <;> simp <;> omega
    | false =>
      rw [hval] at h
      simp only [Bool.false_eq_true, if_false] at h
      rw [Option.map_eq_some'] at h
      obtain ⟨r, hr, hf⟩ := h
      obtain ⟨h1, h2, h3⟩ : r.1 = ps ∧ (0 : ℚ) :: r.2.1 = qs ∧
          r.2.2 = rest3 := by
        simpa [Prod.ext_iff] using hf
      obtain ⟨ih1, ih2⟩ := ih css cpis cvals r.1 r.2.1 r.2.2 hms' (by rw [hr])
      rw [List.filter_cons_of_neg (by simp [hval]), ← h3]
      exact ⟨ih1, ih2⟩

theorem partitionAll_consumes {S : Type} (g : GameAPI S) :
    ∀ (states : List S) (css : List S) (cpis : List (List ℚ))
      (cvals : List ℚ) (bp : List (List (List ℚ))) (bq : List (List ℚ))
      (rest3 : List S × List (List ℚ) × List ℚ),
      (∀ s ∈ states, (g.get_valid_moves s).length = g.get_action_size s) →
      partitionAll g states css cpis cvals = some (bp, bq, rest3) →
      cpis.length = (states.map (numValid g)).sum + rest3.2.1.length ∧
      cvals.length = (states.map (numValid g)).sum + rest3.2.2.length := by
  intro states
  induction states with
  | nil =>
    intro css cpis cvals bp bq rest3 hvm h
    simp only [partitionAll, Option.some.injEq, Prod.mk.injEq] at h
    obtain ⟨-, -, hr⟩ := h
    rw [← hr]
    simp
  | cons s rest ih =>
    intro css cpis cvals bp bq rest3 hvm h
    have hvs : (g.get_valid_moves s).length = g.get_action_size s :=
      hvm s (List.mem_cons_self _ _)
    have hvm' : ∀ x ∈ rest, (g.get_valid_moves x).length = g.get_action_size x :=
      fun x hx => hvm x (List.mem_cons_of_mem _ hx)
    simp only [partitionAll] at h
    rw [Option.bind_eq_some] at h
    obtain ⟨r, hr, hrest⟩ := h
    rw [Option.map_eq_some'] at hrest
    obtain ⟨r', hr', hf⟩ := hrest
    obtain ⟨h1, h2, h3⟩ : r.1 :: r'.1 = bp ∧ r.2.1 :: r'.2.1 = bq ∧
        r'.2.2 = rest3 := by
      simpa [Prod.ext_iff] using hf
    have hms : ∀ m ∈ List.range (g.get_action_size s),
        m < (g.get_valid_moves s).length := by
      intro m hm
      rw [hvs]
      exact List.mem_range.mp hm
    obtain ⟨c1, c2⟩ := partitionOne_consumes g s
      (List.range (g.get_action_size s)) css cpis cvals r.1 r.2.1 r.2.2 hms
      (by rw [hr])
    obtain ⟨d1, d2⟩ := ih r.2.2.1 r.2.2.2.1 r.2.2.2.2 r'.1 r'.2.1 r'.2.2 hvm'
      (by rw [hr'])
    have enum : ((List.range (g.get_action_size s)).filter
        (validAt (g.get_valid_moves s))).length = numValid g s := by
      rw [filter_range_eq_argwherePos g s hvs]
      rfl
    rw [enum] at c1 c2
    rw [← h3]
    constructor <;> simp only [List.map_cons, List.sum_cons] <;> omega

theorem flatCanonicalChildren_length {S : Type} (g : GameAPI S) :
    ∀ (states : List S),
      (flatCanonicalChildren g states).length =
        (states.map (numValid g)).sum := by
  intro states
  induction states with
  | nil => rfl
  | cons s rest ih =>
    rw [flatCanonicalChildren_cons, List.length_append, ih]
    simp [numValid]

/-- C9: (1) whenever the number of evaluator outputs — priors or values —
differs from the number of legal-move expansions requested across the
batch, `get_immediate_lookahead` fails fatally (returns no result; the
Python `assert`/`IndexError` aborts the call and nothing retries it);
(2) `select_best_child` on a (cached) node with no legal action fails
fatally (the `raise Exception` branch). -/
theorem lookahead_mismatch_and_select_fatal :
    (∀ (S : Type) (g : GameAPI S)
      (forward : List S → List (List ℚ) × List ℚ) (states : List S),
      (∀ s ∈ states, (g.get_valid_moves s).length = g.get_action_size s) →
      ((forward (flatCanonicalChildren g states)).1.length ≠
          (flatCanonicalChildren g states).length ∨
        (forward (flatCanonicalChildren g states)).2.length ≠
          (flatCanonicalChildren g states).length) →
      get_immediate_lookahead g forward states = none) ∧
    (∀ (S : Type) (g : GameAPI S)
      (fw : List S → List (List ℚ) × List ℚ) (sq : Nat → ℚ) (t : MCTree S)
      (nid : Nat) (nd : Node S),
      t.get nid = some nd → nd.cached_children = true →
      argwherePos (g.get_valid_moves nd.state) = [] →
      select_best_child g fw sq t nid 1 = none) := by
  constructor
  · intro S g forward states hvm hmis
    cases hres : get_immediate_lookahead g forward states with
    | none => rfl
    | some r =>
      exfalso
      simp only [get_immediate_lookahead] at hres
      rw [Option.bind_eq_some] at hres
      obtain ⟨r', hr', hf⟩ := hres
      obtain ⟨bp, bq, rest3⟩ := r'
      by_cases hcond : rest3.2.1 = [] ∧ rest3.2.2 = []
      · obtain ⟨c1, c2⟩ := partitionAll_consumes g states
          (flatCanonicalChildren g states)
          (forward (flatCanonicalChildren g states)).1
          (forward (flatCanonicalChildren g states)).2 bp bq rest3 hvm hr'
        rw [hcond.1] at c1
        rw [hcond.2] at c2
        rw [flatCanonicalChildren_length g states] at hmis
        simp only [List.length_nil, Nat.add_zero] at c1 c2
        rcases hmis with hmis | hmis
        · exact hmis c1
        · exact hmis c2
      · rw [if_neg hcond] at hf
        exact Option.noConfusion hf
  · intro S g fw sq t nid nd hnd hcached hempty
    simp only [select_best_child, hnd, Option.some_bind, hcached, if_true,
      hempty, ucbLoop, Option.some_bind]

/-- Witness for C9: a zero-output evaluator on a batch with two requested
expansions aborts the lookahead; selection on `tEmpty` (no legal action
under `gEmpty`) aborts. -/
theorem lookahead_mismatch_and_select_fatal_witness :
    ((∀ s ∈ [0], (gW.get_valid_moves s).length = gW.get_action_size s) ∧
      get_immediate_lookahead gW (fun _ => ([], [])) [0] = none) ∧
    (tEmpty.get 0 = some ndEmpty ∧ ndEmpty.cached_children = true ∧
      argwherePos (gEmpty.get_valid_moves ndEmpty.state) = [] ∧
      select_best_child gEmpty (fun _ => ([], [])) (fun n => (n : ℚ))
        tEmpty 0 1 = none) :=
  ⟨⟨by decide,
      lookahead_mismatch_and_select_fatal.1 Nat gW (fun _ => ([], [])) [0]
        (by decide) (by decide)⟩,
    ⟨rfl, by decide, by decide,
      lookahead_mismatch_and_select_fatal.2 Nat gEmpty (fun _ => ([], []))
        (fun n => (n : ℚ)) tEmpty 0 ndEmpty rfl (by decide) (by decide)⟩⟩


theorem searchLoop_exact {α : Type} (step : α → α) (max_num : Nat) :
    ∀ (n k : Nat) (t : α), max_num - k = n → k ≤ max_num →
      searchLoop step max_num t k = (step^[n] t, max_num) := by
  intro n
  induction n with
  | zero =>
    intro k t hn hk
    have hnl : ¬ k < max_num := by omega
    rw [searchLoop, if_neg hnl]
    have : k = max_num := by omega
    simp [this]
  | succ n ih =>
    intro k t hn hk
    have hlt : k < max_num := by omega
    rw [searchLoop, if_pos hlt, ih (k + 1) (step t) (by omega) (by omega),
      Function.iterate_succ_apply]

/-- C1 (the part the code satisfies): for every `max_num_searches > 0`
the counted loop of `get_action_probs` performs exactly
`max_num_searches` simulation steps — the loop state is the
`max_num_searches`-fold iterate of one simulation and the counter ends at
exactly `max_num_searches` — and the function's result is the `pi`
computed from the root-child visit counts of that iterate.  (The
function then returns only `pi`; the promised pair `(pi, num_search)` of
its docstring and of the tests is not returned — the code_bug recorded
for C1.) -/
theorem get_action_probs_search_count {S : Type} (g : GameAPI S)
    (fw : List S → List (List ℚ) × List ℚ) (sq : Nat → ℚ) (t : MCTree S)
    (max_num_searches : Nat) (temp : ℚ) (fuel : Nat)
    (h : 0 < max_num_searches) :
    searchLoop (fun o => o.bind (simulate g fw sq fuel)) max_num_searches
        (some t) 0 =
      ((fun o => o.bind (simulate g fw sq fuel))^[max_num_searches] (some t),
        max_num_searches) ∧
    get_action_probs g fw sq t max_num_searches temp fuel =
      ((fun o => o.bind (simulate g fw sq fuel))^[max_num_searches]
          (some t)).bind
        fun t' => (rootChildCounts t').map fun N => piFromCounts temp N := by
  have hloop := searchLoop_exact (fun o => o.bind (simulate g fw sq fuel))
    max_num_searches max_num_searches 0 (some t) (by omega) (by omega)
  refine ⟨hloop, ?_⟩
  rw [get_action_probs, if_pos h, hloop]

/-- Witness for C1 at a concrete tree and `max_num_searches = 2`. -/
theorem get_action_probs_search_count_witness :
    0 < 2 ∧
      (searchLoop (fun o => o.bind (simulate gW forwardW (fun n => (n : ℚ)) 1))
          2 (some tW3) 0 =
        ((fun o => o.bind (simulate gW forwardW (fun n => (n : ℚ)) 1))^[2]
            (some tW3), 2) ∧
      get_action_probs gW forwardW (fun n => (n : ℚ)) tW3 2 1 1 =
        ((fun o => o.bind (simulate gW forwardW (fun n => (n : ℚ)) 1))^[2]
            (some tW3)).bind
          fun t' => (rootChildCounts t').map fun N => piFromCounts 1 N) :=
  ⟨by decide,
    get_action_probs_search_count gW forwardW (fun n => (n : ℚ)) tW3 2 1 1
      (by decide)⟩

/-- C2 (as the code behaves): `step(0)` on a root with no cached child
computes the canonical successor and evaluates the network on it, but the
fresh parentless root stores the *non-canonical* `next_state`, which here
differs from the canonical form.  (The parent link is `none`, as the
claim states.) -/
theorem step_stores_noncanonical_state :
    (MCTree.step gW forwardW tW2 0 1).bind
        (fun t' => (t'.get t'.root).map (fun nd => (nd.state, nd.parent))) =
      some (gW.get_next_state 0 0, none) ∧
    gW.get_next_state 0 0 ≠
      gW.get_canonical_form (gW.get_next_state 0 0)
        (gW.get_turn (gW.get_next_state 0 0)) := by
  constructor
  · rfl
  · decide


theorem set_getElem_self {α : Type} (l : List α) (i : Nat) (x : α)
    (h : l[i]? = some x) : l.set i x = l := by
  apply List.ext_getElem?
  intro j
  by_cases hj : i = j
  · subst hj
    rw [List.getElem?_set_eq_of_lt _ (List.getElem?_eq_some.mp h).1, h]
  · rw [List.getElem?_set_ne hj]

theorem simulate_terminal_root {S : Type} (g : GameAPI S)
    (fw : List S → List (List ℚ) × List ℚ) (sq : Nat → ℚ) (fuel : Nat)
    (t : MCTree S) (nd : Node S)
    (hroot : t.get t.root = some nd) (hterm : nd.terminal = true)
    (hpar : nd.parent = none) (hfuel : 1 ≤ fuel) :
    simulate g fw sq fuel t =
      some ⟨t.nodes.set t.root
        { nd with N := nd.N + 1, Q_sum := nd.Q_sum + nd.V }, t.root⟩ := by
  obtain ⟨f, rfl⟩ : ∃ f, fuel = f + 1 := ⟨fuel - 1, by omega⟩
  have hcond : (nd.visited && !nd.terminal) = false := by
    rw [hterm]
    simp
  have hroot' : t.nodes[t.root]? = some nd := hroot
  simp only [simulate, descend, hroot, hcond, Bool.false_eq_true, if_false,
    Option.some_bind, back_propagate, hroot', hpar, Option.map_some']

theorem iterate_simulate_terminal {S : Type} (g : GameAPI S)
    (fw : List S → List (List ℚ) × List ℚ) (sq : Nat → ℚ) (fuel : Nat)
    (t : MCTree S) (nd : Node S)
    (hroot : t.get t.root = some nd) (hterm : nd.terminal = true)
    (hpar : nd.parent = none) (hfuel : 1 ≤ fuel) :
    ∀ k, (fun o => o.bind (simulate g fw sq fuel))^[k] (some t) =
      some (⟨t.nodes.set t.root
        { nd with N := nd.N + k, Q_sum := nd.Q_sum + (k : ℚ) * nd.V },
        t.root⟩ : MCTree S) := by
  intro k
  induction k with
  | zero =>
    simp only [Function.iterate_zero, id_eq]
    have hrec : ({ nd with
        N := nd.N + 0
        Q_sum := nd.Q_sum + ((0 : Nat) : ℚ) * nd.V } : Node S) = nd := by
      have h1 : nd.Q_sum + ((0 : Nat) : ℚ) * nd.V = nd.Q_sum := by
        push_cast
        ring
      rw [h1]
      rfl
    rw [hrec, set_getElem_self _ _ _ hroot]
  | succ k ih =>
    rw [Function.iterate_succ_apply', ih]
    simp only [Option.some_bind]
    have hlt : t.root < t.nodes.length := (List.getElem?_eq_some.mp hroot).1
    have hrootk : (⟨t.nodes.set t.root
        { nd with N := nd.N + k, Q_sum := nd.Q_sum + (k : ℚ) * nd.V },
        t.root⟩ : MCTree S).get t.root =
        some { nd with N := nd.N + k, Q_sum := nd.Q_sum + (k : ℚ) * nd.V } :=
      List.getElem?_set_eq_of_lt _ hlt
    rw [simulate_terminal_root g fw sq fuel _ _ hrootk hterm hpar hfuel]
    rw [List.set_set]
    have hrec : ({ nd with
        N := nd.N + k + 1
        Q_sum := nd.Q_sum + (k : ℚ) * nd.V + nd.V } : Node S) =
        { nd with
          N := nd.N + (k + 1)
          Q_sum := nd.Q_sum + ((k + 1 : Nat) : ℚ) * nd.V } := by
      have h1 : nd.Q_sum + (k : ℚ) * nd.V + nd.V =
          nd.Q_sum + ((k + 1 : Nat) : ℚ) * nd.V := by
        push_cast
        ring
      rw [h1]
      rfl
    rw [hrec]

theorem foldl_max_replicate_zero : ∀ (A : Nat),
    (List.replicate A (0 : Nat)).foldl max 0 = 0 := by
  intro A
  induction A with
  | zero => rfl
  | succ A ih => rw [List.replicate_succ, List.foldl_cons, max_self, ih]

/-- C10: if the root's state is terminal then `get_action_probs` never
expands any child: every simulation stops at the root at once and only
bumps its statistics, so after any `max_num_searches > 0` searches the
root's child slots are exactly as before (here: all `None`) and the
visit-count vector is all zeros.  Consequently, for `temperature > 0` the
returned `pi` is the all-zero vector (summing to 0 — not a probability
distribution), and for `temperature == 0` it is the uniform distribution
over all `action_size` actions. -/
theorem get_action_probs_terminal_root {S : Type} (g : GameAPI S)
    (fw : List S → List (List ℚ) × List ℚ) (sq : Nat → ℚ) (t : MCTree S)
    (nd : Node S) (max_num_searches : Nat) (temp : ℚ) (fuel : Nat)
    (hroot : t.get t.root = some nd) (hterm : nd.terminal = true)
    (hpar : nd.parent = none)
    (hch : ∀ c ∈ nd.children, c = none)
    (hA : 0 < nd.children.length)
    (hmax : 0 < max_num_searches) (hfuel : 1 ≤ fuel) :
    (∃ t', (searchLoop (fun o => o.bind (simulate g fw sq fuel))
        max_num_searches (some t) 0).1 = some t' ∧
      t'.get t'.root = some { nd with
        N := nd.N + max_num_searches
        Q_sum := nd.Q_sum + (max_num_searches : ℚ) * nd.V } ∧
      rootChildCounts t' = some (List.replicate nd.children.length 0)) ∧
    get_action_probs g fw sq t max_num_searches temp fuel =
      some (piFromCounts temp (List.replicate nd.children.length 0)) ∧
    (0 < temp →
      piFromCounts temp (List.replicate nd.children.length 0) =
        List.replicate nd.children.length 0 ∧
      (piFromCounts temp (List.replicate nd.children.length 0)).sum = 0) ∧
    (temp = 0 →
      piFromCounts temp (List.replicate nd.children.length 0) =
        List.replicate nd.children.length
          ((nd.children.length : ℝ))⁻¹) := by
  have hlt : t.root < t.nodes.length := (List.getElem?_eq_some.mp hroot).1
  have hloop := searchLoop_exact (fun o => o.bind (simulate g fw sq fuel))
    max_num_searches max_num_searches 0 (some t) (by omega) (by omega)
  have hiter := iterate_simulate_terminal g fw sq fuel t nd hroot hterm hpar
    hfuel max_num_searches
  have hrootk : (⟨t.nodes.set t.root
      { nd with
        N := nd.N + max_num_searches
        Q_sum := nd.Q_sum + (max_num_searches : ℚ) * nd.V },
      t.root⟩ : MCTree S).get t.root =
      some { nd with
        N := nd.N + max_num_searches
        Q_sum := nd.Q_sum + (max_num_searches : ℚ) * nd.V } :=
    List.getElem?_set_eq_of_lt _ hlt
  have hcounts : rootChildCounts (⟨t.nodes.set t.root
      { nd with
        N := nd.N + max_num_searches
        Q_sum := nd.Q_sum + (max_num_searches : ℚ) * nd.V },
      t.root⟩ : MCTree S) = some (List.replicate nd.children.length 0) := by
    rw [rootChildCounts, hrootk, Option.map_some']
    congr 1
    rw [List.eq_replicate]
    refine ⟨by simp, ?_⟩
    intro b hb
    rw [List.mem_map] at hb
    obtain ⟨c, hc, hbc⟩ := hb
    rw [hch c hc] at hbc
    exact hbc.symm
  refine ⟨⟨_, by rw [hloop]; exact hiter, hrootk, hcounts⟩, ?_, ?_, ?_⟩
  · rw [get_action_probs, if_pos hmax, hloop]
    simp only [hiter, Option.some_bind, hcounts, Option.map_some']
  · intro htemp
    have hpow : ((0 : Nat) : ℝ) ^ (((1 / temp : ℚ) : ℝ)) = 0 := by
      rw [Nat.cast_zero]
      apply Real.zero_rpow
      have : (0 : ℚ) < 1 / temp := by positivity
      exact_mod_cast ne_of_gt this
    have hmap : (List.replicate nd.children.length (0 : Nat)).map
        (fun n : Nat => (n : ℝ) ^ (((1 / temp : ℚ) : ℝ))) =
        List.replicate nd.children.length (0 : ℝ) := by
      rw [List.map_replicate, hpow]
    have habs : ((List.replicate nd.children.length (0 : ℝ)).map abs).sum
        = 0 := by
      rw [List.map_replicate, abs_zero, List.sum_replicate, smul_zero]
    have h1 : piFromCounts temp (List.replicate nd.children.length 0) =
        List.replicate nd.children.length 0 := by
      rw [piFromCounts, if_pos htemp, hmap, l1normalize, if_pos habs]
    refine ⟨h1, ?_⟩
    rw [h1, List.sum_replicate, smul_zero]
  · intro htemp
    subst htemp
    have hmax0 : (List.replicate nd.children.length (0 : Nat)).foldl max 0
        = 0 := foldl_max_replicate_zero _
    have hmap : (List.replicate nd.children.length (0 : Nat)).map
        (fun n => if n = (List.replicate nd.children.length (0 : Nat)).foldl
            max 0 then (1 : ℝ) else 0) =
        List.replicate nd.children.length (1 : ℝ) := by
      rw [List.map_replicate, hmax0, if_pos rfl]
    have habs : ((List.replicate nd.children.length (1 : ℝ)).map abs).sum
        = (nd.children.length : ℝ) := by
      rw [List.map_replicate, abs_one, List.sum_replicate, nsmul_eq_mul,
        mul_one]
    rw [piFromCounts, if_neg (lt_irrefl 0), hmap, l1normalize, habs,
      if_neg (by positivity), List.map_replicate, one_div]

/-- Witness for C10 on the terminal-root fixture `tTerm`
(`action_size = 2`, `temperature = 0`). -/
theorem get_action_probs_terminal_root_witness :
    tTerm.get tTerm.root = some ndTerm ∧ ndTerm.terminal = true ∧
      ndTerm.parent = none ∧ (∀ c ∈ ndTerm.children, c = none) ∧
      ((∃ t', (searchLoop (fun o => o.bind
            (simulate gW forwardW (fun n => (n : ℚ)) 1)) 1 (some tTerm) 0).1
            = some t' ∧
          t'.get t'.root = some { ndTerm with
            N := ndTerm.N + 1
            Q_sum := ndTerm.Q_sum + ((1 : Nat) : ℚ) * ndTerm.V } ∧
          rootChildCounts t' =
            some (List.replicate ndTerm.children.length 0)) ∧
        get_action_probs gW forwardW (fun n => (n : ℚ)) tTerm 1 0 1 =
          some (piFromCounts 0 (List.replicate ndTerm.children.length 0)) ∧
        (0 < (0 : ℚ) →
          piFromCounts 0 (List.replicate ndTerm.children.length 0) =
            List.replicate ndTerm.children.length 0 ∧
          (piFromCounts 0
            (List.replicate ndTerm.children.length 0)).sum = 0) ∧
        ((0 : ℚ) = 0 →
          piFromCounts 0 (List.replicate ndTerm.children.length 0) =
            List.replicate ndTerm.children.length
              ((ndTerm.children.length : ℝ))⁻¹)) :=
  ⟨rfl, rfl, rfl, by decide,
    get_action_probs_terminal_root gW forwardW (fun n => (n : ℚ)) tTerm
      ndTerm 1 0 1 rfl rfl rfl (by decide) (by decide) (by decide)
      (by decide)⟩


theorem getD_map_real (f : Nat → ℝ) (l : List Nat) (i : Nat)
    (hi : i < l.length) : (l.map f).getD i 0 = f (l.getD i 0) := by
  rw [List.getD_eq_getElem?_getD, List.getElem?_map,
    List.getElem?_eq_getElem hi, Option.map_some', Option.getD_some,
    List.getD_eq_getElem?_getD, List.getElem?_eq_getElem hi, Option.getD_some]

theorem l1normalize_getD (xs : List ℝ) (h : (xs.map abs).sum ≠ 0) (i : Nat)
    (hi : i < xs.length) :
    (l1normalize xs).getD i 0 = xs.getD i 0 / (xs.map abs).sum := by
  rw [l1normalize, if_neg h, List.getD_eq_getElem?_getD, List.getElem?_map,
    List.getElem?_eq_getElem hi, Option.map_some', Option.getD_some,
    List.getD_eq_getElem?_getD, List.getElem?_eq_getElem hi, Option.getD_some]

theorem sum_map_abs_of_nonneg : ∀ (xs : List ℝ), (∀ x ∈ xs, 0 ≤ x) →
    (xs.map abs).sum = xs.sum := by
  intro xs
  induction xs with
  | nil => intro _; rfl
  | cons x xs ih =>
    intro h
    rw [List.map_cons, List.sum_cons, List.sum_cons,
      abs_of_nonneg (h x (List.mem_cons_self _ _)),
      ih (fun y hy => h y (List.mem_cons_of_mem _ hy))]

theorem sum_indicator_eq_countP (M : Nat) : ∀ (N : List Nat),
    (N.map (fun n : Nat => if n = M then (1 : ℝ) else 0)).sum =
      ((N.countP (fun n => n = M) : ℕ) : ℝ) := by
  intro N
  induction N with
  | nil => simp
  | cons n N ih =>
    rw [List.map_cons, List.sum_cons, ih]
    by_cases h : n = M
    · rw [if_pos h, List.countP_cons_of_pos _ _ (by simpa using h)]
      push_cast
      ring
    · rw [if_neg h, List.countP_cons_of_neg _ _ (by simpa using h)]
      ring

theorem foldl_max_eq_or_mem : ∀ (l : List Nat) (a : Nat),
    l.foldl max a = a ∨ l.foldl max a ∈ l := by
  intro l
  induction l with
  | nil => exact fun a => Or.inl rfl
  | cons x xs ih =>
    intro a
    rw [List.foldl_cons]
    rcases ih (max a x) with h | h
    · rw [h]
      rcases max_choice a x with h' | h'
      · exact Or.inl h'
      · exact Or.inr (by rw [h']; exact List.mem_cons_self x xs)
    · exact Or.inr (List.mem_cons_of_mem _ h)

theorem foldl_max_zero_mem (N : List Nat) (h : N ≠ []) :
    N.foldl max 0 ∈ N := by
  cases N with
  | nil => exact absurd rfl h
  | cons x xs =>
    rw [List.foldl_cons, max_eq_right (Nat.zero_le x)]
    rcases foldl_max_eq_or_mem xs x with h' | h'
    · rw [h']
      exact List.mem_cons_self x xs
    · exact List.mem_cons_of_mem _ h'

/-- C4: after the simulations of `get_action_probs`, with `N` the vector
of root-child visit counts (0 for empty child slots), the returned vector
is `piFromCounts temp N`, where:
for `temperature > 0` (when the powered-count sum is nonzero) entry `i`
is `N_i^(1/temperature)` divided by `Σ_j N_j^(1/temperature)` — the
L1-normalization of `N^(1/temperature)`;
for `temperature == 0` entry `i` is `1/k` when `N_i` attains `max N`
(`k` the number of actions attaining the maximum — ties split equally,
never a single pick) and `0` otherwise: the uniform distribution over
exactly the argmax set. -/
theorem get_action_probs_pi_spec {S : Type} (g : GameAPI S)
    (fw : List S → List (List ℚ) × List ℚ) (sq : Nat → ℚ) (t t' : MCTree S)
    (max_num_searches : Nat) (temp : ℚ) (fuel : Nat) (N : List Nat)
    (hmax : 0 < max_num_searches)
    (hloop : (searchLoop (fun o => o.bind (simulate g fw sq fuel))
        max_num_searches (some t) 0).1 = some t')
    (hN : rootChildCounts t' = some N) :
    get_action_probs g fw sq t max_num_searches temp fuel =
      some (piFromCounts temp N) ∧
    (0 < temp →
      (N.map (fun n : Nat => (n : ℝ) ^ (((1 / temp : ℚ) : ℝ)))).sum ≠ 0 →
      ∀ i, i < N.length →
        (piFromCounts temp N).getD i 0 =
          ((N.getD i 0 : ℕ) : ℝ) ^ (((1 / temp : ℚ) : ℝ)) /
            (N.map (fun n : Nat => (n : ℝ) ^ (((1 / temp : ℚ) : ℝ)))).sum) ∧
    (temp = 0 → ∀ i, i < N.length →
      (piFromCounts temp N).getD i 0 =
        if N.getD i 0 = N.foldl max 0 then
          1 / ((N.countP (fun n => n = N.foldl max 0) : ℕ) : ℝ)
        else 0) := by
  refine ⟨?_, ?_, ?_⟩
  · rw [get_action_probs, if_pos hmax, hloop, Option.some_bind, hN,
      Option.map_some']
  · intro htemp hsum i hi
    have hnn : ∀ x ∈ N.map (fun n : Nat => (n : ℝ) ^ (((1 / temp : ℚ) : ℝ))),
        0 ≤ x := by
      intro x hx
      rw [List.mem_map] at hx
      obtain ⟨n, -, rfl⟩ := hx
      exact Real.rpow_nonneg (Nat.cast_nonneg n) _
    have habs := sum_map_abs_of_nonneg _ hnn
    rw [piFromCounts, if_pos htemp,
      l1normalize_getD _ (by rw [habs]; exact hsum) i (by simpa using hi),
      getD_map_real _ _ _ hi, habs]
  · intro h0 i hi
    subst h0
    have hne : N ≠ [] := List.ne_nil_of_length_pos (by omega)
    have hmem := foldl_max_zero_mem N hne
    have hcnt : 0 < N.countP (fun n => n = N.foldl max 0) :=
      List.countP_pos.mpr ⟨N.foldl max 0, hmem, by simp⟩
    have hnn : ∀ x ∈ N.map
        (fun n : Nat => if n = N.foldl max 0 then (1 : ℝ) else 0), 0 ≤ x := by
      intro x hx
      rw [List.mem_map] at hx
      obtain ⟨n, -, rfl⟩ := hx
      by_cases h : n = N.foldl max 0 <;> simp [h]
    have habs := sum_map_abs_of_nonneg _ hnn
    have hsum := sum_indicator_eq_countP (N.foldl max 0) N
    have hsumne : ((N.map
        (fun n : Nat => if n = N.foldl max 0 then (1 : ℝ) else 0)).map
          abs).sum ≠ 0 := by
      rw [habs, hsum]
      have : (0 : ℝ) < ((N.countP (fun n => n = N.foldl max 0) : ℕ) : ℝ) := by
        exact_mod_cast hcnt
      exact ne_of_gt this
    rw [piFromCounts, if_neg (lt_irrefl 0),
      l1normalize_getD _ hsumne i (by simpa using hi),
      getD_map_real _ _ _ hi, habs, hsum]
    by_cases hcase : N.getD i 0 = N.foldl max 0
    · rw [if_pos hcase, if_pos hcase]
    · rw [if_neg hcase, if_neg hcase, zero_div]

/-- Witness for C4 at the terminal-root fixture: one search leaves the
count vector `[0, 0]`; at `temperature = 0` both actions attain the
maximum and each receives probability `1/2`. -/
theorem get_action_probs_pi_spec_witness :
    0 < 1 ∧
      (get_action_probs gW forwardW (fun n => (n : ℚ)) tTerm 1 0 1 =
        some (piFromCounts 0 [0, 0]) ∧
      (0 < (0 : ℚ) →
        (([0, 0] : List Nat).map
          (fun n : Nat => (n : ℝ) ^ (((1 / (0 : ℚ) : ℚ) : ℝ)))).sum ≠ 0 →
        ∀ i, i < ([0, 0] : List Nat).length →
          (piFromCounts 0 [0, 0]).getD i 0 =
            ((([0, 0] : List Nat).getD i 0 : ℕ) : ℝ) ^
                (((1 / (0 : ℚ) : ℚ) : ℝ)) /
              (([0, 0] : List Nat).map
                (fun n : Nat => (n : ℝ) ^ (((1 / (0 : ℚ) : ℚ) : ℝ)))).sum) ∧
      ((0 : ℚ) = 0 → ∀ i, i < ([0, 0] : List Nat).length →
        (piFromCounts 0 [0, 0]).getD i 0 =
          if ([0, 0] : List Nat).getD i 0 = ([0, 0] : List Nat).foldl max 0
          then 1 / ((([0, 0] : List Nat).countP
              (fun n => n = ([0, 0] : List Nat).foldl max 0) : ℕ) : ℝ)
          else 0)) :=
  ⟨by decide,
    get_action_probs_pi_spec gW forwardW (fun n => (n : ℚ)) tTerm
      (⟨tTerm.nodes.set 0 { ndTerm with
          N := ndTerm.N + 1
          Q_sum := ndTerm.Q_sum + ((1 : Nat) : ℚ) * ndTerm.V }, 0⟩ : MCTree Nat)
      1 0 1 [0, 0] (by decide)
      (by
        rw [searchLoop_exact _ 1 1 0 (some tTerm) rfl (by omega)]
        exact iterate_simulate_terminal gW forwardW (fun n => (n : ℚ)) 1
          tTerm ndTerm rfl rfl rfl (by decide) 1)
      rfl⟩

end GoAI
